import Mathlib

/-!
# ODR-DabMod: `OfdmGenerator`

A shallow embedding of `src/OfdmGenerator.cpp`: the constructor with its carrier
layout, and `process` in the FFTW build and in the build with `USE_GPU_FFT`.
The byte order helpers of `src/endian_converter.hpp` follow in a part of their
own.

Machine integers are natural numbers reduced explicitly: `size_t` is taken as
64 bit wide and `unsigned` as 32 bit wide (the class declaration is in
`OfdmGenerator.h`; the constructor prints the eight layout members with `%u`
and the three size members with `%zu`).  Complex samples are pairs of
components of an arbitrary type `R` with a zero: the generator only moves
samples and clears them, the transform itself is a parameter `T`.
-/

namespace OfdmGen

/-! ## Machine integers -/

/-- Number of values of a `size_t`. -/
def SIZE_MOD : Nat := 2 ^ 64

/-- Number of values of an `unsigned`. -/
def UINT_MOD : Nat := 2 ^ 32

/-- Conversion of a value to `unsigned` (assignment to one of the layout members). -/
def toUnsigned (x : Nat) : Nat := x % UINT_MOD

/-- `a + b` on `size_t`. -/
def sizeAdd (a b : Nat) : Nat := (a + b) % SIZE_MOD

/-- `a - b` on `size_t` (wraps below zero). -/
def sizeSub (a b : Nat) : Nat := (a % SIZE_MOD + SIZE_MOD - b % SIZE_MOD) % SIZE_MOD

/-- `a * b` on `size_t`. -/
def sizeMul (a b : Nat) : Nat := (a * b) % SIZE_MOD

/-- `a + b` on `unsigned`. -/
def uintAdd (a b : Nat) : Nat := (a + b) % UINT_MOD

/-- `a - b` on `unsigned` (wraps below zero). -/
def uintSub (a b : Nat) : Nat := (a % UINT_MOD + UINT_MOD - b % UINT_MOD) % UINT_MOD

/-- Conversion of a `size_t` to `int` (32 bit, two's complement). -/
def toInt (x : Nat) : Int := ((x + 2 ^ 31) % 2 ^ 32 : Nat) - 2 ^ 31

/-- Conversion of an `int` to `size_t`. -/
def intToSize (n : Int) : Nat := (n % (SIZE_MOD : Int)).toNat

/-- The value of `sizeof(complexf)`, `complexf` being `std::complex<float>`. -/
def sizeofComplexf : Nat := 8

/-- The value of `sizeof(FFT_TYPE)`, `FFT_TYPE` being `fftwf_complex`, that is `float[2]`. -/
def sizeofFftType : Nat := 8

/-! ## Samples and arrays of samples -/

/-- One complex sample: `FFT_TYPE`, a real and an imaginary component. -/
structure Complexf (R : Type) where
  re : R
  im : R
deriving DecidableEq

/-- The sample whose two components are zero (all bytes zero). -/
def Complexf.zero {R : Type} [Zero R] : Complexf R := ⟨0, 0⟩

/-- The two stores `a[0][0] = 0; a[0][1] = 0;`.  `none`: the array has no element 0. -/
def zeroBin0 {R : Type} [Zero R] (a : List (Complexf R)) : Option (List (Complexf R)) :=
  match a with
  | [] => none
  | c :: rest =>
    let c1 : Complexf R := { c with re := 0 }
    let c2 : Complexf R := { c1 with im := 0 }
    some (c2 :: rest)

/-- Clearing `bzero(&a[off], n * sizeof(FFT_TYPE))`.
`none`: the range `[off, off + n)` is not inside the array (undefined behaviour in C). -/
def bzero {R : Type} [Zero R] (a : List (Complexf R)) (off n : Nat) :
    Option (List (Complexf R)) :=
  if off + n ≤ a.length then
    some (a.take off ++ List.replicate n Complexf.zero ++ a.drop (off + n))
  else none

/-- Copying `memcpy(&dst[dOff], &src[sOff], n * sizeof(FFT_TYPE))`.
`none`: the destination or the source range is not inside its array. -/
def memcpy {β : Type} (dst : List β) (dOff : Nat) (src : List β) (sOff n : Nat) :
    Option (List β) :=
  if dOff + n ≤ dst.length ∧ sOff + n ≤ src.length then
    some (dst.take dOff ++ (src.drop sOff).take n ++ dst.drop (dOff + n))
  else none

/-! ## The generator and its constructor -/

/-- The data members of `OfdmGenerator` (FFTW build).  The plan `myFftPlan` is
represented by the transform `T` given to `process`. -/
structure OfdmGenerator (R : Type) where
  myFftIn : List (Complexf R)
  myFftOut : List (Complexf R)
  myNbSymbols : Nat
  myNbCarriers : Nat
  mySpacing : Nat
  myPosSrc : Nat
  myPosDst : Nat
  myPosSize : Nat
  myNegSrc : Nat
  myNegDst : Nat
  myNegSize : Nat
  myZeroDst : Nat
  myZeroSize : Nat
deriving DecidableEq

/-- A resource acquired by the constructor, in the order of acquisition. -/
inductive Acquired where
  | fftwfMalloc (bytes : Nat)
  | fftwfPlanDft1d (n : Int)
deriving DecidableEq

/-- The exceptions of the constructor (`std::runtime_error`, by message). -/
inductive CtorError where
  | nbCarriersGtSpacing
  | complexfSizeIsNotFftTypeSize
deriving DecidableEq

/-- The constructor `OfdmGenerator::OfdmGenerator(nbSymbols, nbCarriers, spacing, inverse)`.
The first component lists the buffers and the plan acquired up to the point the
constructor returns or throws; `memIn` and `memOut` are the contents of the two
freshly allocated arrays. -/
def OfdmGenerator.new {R : Type} (memIn memOut : Nat → Complexf R)
    (nbSymbols nbCarriers spacing : Nat) (inverse : Bool) :
    List Acquired × Except CtorError (OfdmGenerator R) :=
  if nbCarriers > spacing then
    ([], Except.error CtorError.nbCarriersGtSpacing)
  else
    let (myPosDst, myPosSrc, myPosSize, myNegDst, myNegSrc, myNegSize) :=
      if inverse then
        (toUnsigned (if nbCarriers &&& 1 != 0 then 0 else 1),
         toUnsigned 0,
         toUnsigned (sizeAdd nbCarriers 1 / 2),
         toUnsigned (sizeSub spacing (nbCarriers / 2)),
         toUnsigned (sizeAdd nbCarriers 1 / 2),
         toUnsigned (nbCarriers / 2))
      else
        (toUnsigned (if nbCarriers &&& 1 != 0 then 0 else 1),
         toUnsigned (nbCarriers / 2),
         toUnsigned (sizeAdd nbCarriers 1 / 2),
         toUnsigned (sizeSub spacing (nbCarriers / 2)),
         toUnsigned 0,
         toUnsigned (nbCarriers / 2))
    let myZeroDst := uintAdd myPosDst myPosSize
    let myZeroSize := uintSub myNegDst myZeroDst
    let N : Int := toInt spacing
    let bytes := sizeMul sizeofFftType (intToSize N)
    let myFftIn := (List.range (bytes / sizeofFftType)).map memIn
    let myFftOut := (List.range (bytes / sizeofFftType)).map memOut
    let acquired := [Acquired.fftwfMalloc bytes, Acquired.fftwfMalloc bytes,
      Acquired.fftwfPlanDft1d N]
    if sizeofComplexf != sizeofFftType then
      (acquired, Except.error CtorError.complexfSizeIsNotFftTypeSize)
    else
      (acquired, Except.ok
        { myFftIn := myFftIn, myFftOut := myFftOut,
          myNbSymbols := nbSymbols, myNbCarriers := nbCarriers, mySpacing := spacing,
          myPosSrc := myPosSrc, myPosDst := myPosDst, myPosSize := myPosSize,
          myNegSrc := myNegSrc, myNegDst := myNegDst, myNegSize := myNegSize,
          myZeroDst := myZeroDst, myZeroSize := myZeroSize })

/-! ## Buffers -/

/-- Modelled from the spec: the `Buffer` collaborator (its class belongs to
another file of ODR-DabMod), "a resizable raw-byte container exposing
get-length, set-length, and a raw contiguous read/write view", "holding a packed
sequence of complex samples".  `length` is the length in bytes; `data` is the
storage read as complex samples, which is how `process` reads and writes it. -/
structure Buffer (R : Type) where
  length : Nat
  data : List (Complexf R)
deriving DecidableEq

/-- Modelled from the spec: get-length of the `Buffer` collaborator, in bytes. -/
def Buffer.getLength {R : Type} (b : Buffer R) : Nat := b.length

/-- Modelled from the spec: the raw contiguous view of the `Buffer` collaborator. -/
def Buffer.getData {R : Type} (b : Buffer R) : List (Complexf R) := b.data

/-- Modelled from the spec: set-length of the `Buffer` collaborator.  The buffer
then holds `len` bytes, that is `len / 8` whole samples; the samples it held
before stay, and sample `i` of storage that is new holds the arbitrary `fresh i`. -/
def Buffer.setLength {R : Type} (fresh : Nat → Complexf R) (b : Buffer R) (len : Nat) :
    Buffer R :=
  { length := len,
    data := (List.range (len / sizeofComplexf)).map (fun i => b.data.getD i (fresh i)) }

/-! ## `process` -/

/-- What the loop of `process` changes: the two transform arrays, the storage of
the output buffer, and the two running pointers `in` and `out` (as sample
offsets into the input and output storage). -/
structure LoopState (R : Type) where
  myFftIn : List (Complexf R)
  myFftOut : List (Complexf R)
  outData : List (Complexf R)
  inOff : Nat
  outOff : Nat
deriving DecidableEq

/-- The four stores into `myFftIn` at the head of the loop body: bin 0 cleared,
the guard range cleared, the positive and the negative carriers copied from the
input at `in`. -/
def scatter {R : Type} [Zero R] (g : OfdmGenerator R) (fftIn inData : List (Complexf R))
    (inOff : Nat) : Option (List (Complexf R)) := do
  let f0 ← zeroBin0 fftIn
  let f1 ← bzero f0 g.myZeroDst g.myZeroSize
  let f2 ← memcpy f1 g.myPosDst inData (inOff + g.myPosSrc) g.myPosSize
  memcpy f2 g.myNegDst inData (inOff + g.myNegSrc) g.myNegSize

/-- One pass through the loop body of `process`; `T` is what `fftwf_execute(myFftPlan)`
computes from `myFftIn` into `myFftOut`. -/
def symbolStep {R : Type} [Zero R] (T : List (Complexf R) → List (Complexf R))
    (g : OfdmGenerator R) (inData : List (Complexf R)) (st : LoopState R) :
    Option (LoopState R) := do
  let fftIn ← scatter g st.myFftIn inData st.inOff
  let fftOut := T fftIn
  let outData ← memcpy st.outData st.outOff fftOut 0 g.mySpacing
  some { myFftIn := fftIn, myFftOut := fftOut, outData := outData,
         inOff := st.inOff + g.myNbCarriers, outOff := st.outOff + g.mySpacing }

/-- The loop `for (size_t i = 0; i < myNbSymbols; ++i)`, by the number of passes left. -/
def symbolLoop {R : Type} [Zero R] (T : List (Complexf R) → List (Complexf R))
    (g : OfdmGenerator R) (inData : List (Complexf R)) :
    Nat → LoopState R → Option (LoopState R)
  | 0, st => some st
  | n + 1, st => (symbolStep T g inData st).bind (symbolLoop T g inData n)

/-- The exceptions of `process` (`std::runtime_error`, by message). -/
inductive ProcessError where
  | inputSizeNotValid
  | outputSizeNotValid
deriving DecidableEq

/-- How a call of `process` ends. -/
inductive Outcome (R : Type) where
  /-- An exception; `dataOut` is the output buffer as the call leaves it. -/
  | thrown (what : ProcessError) (dataOut : Buffer R)
  /-- A normal return of `ret`, with the output buffer and the generator after the call. -/
  | returned (ret : Int) (dataOut : Buffer R) (gen : OfdmGenerator R)
  /-- An access outside an array: the behaviour of the C++ code is undefined. -/
  | undefined
deriving DecidableEq

/-- The method `OfdmGenerator::process(dataIn, dataOut)` of the FFTW build. -/
def process {R : Type} [Zero R] (T : List (Complexf R) → List (Complexf R))
    (fresh : Nat → Complexf R) (g : OfdmGenerator R) (dataIn dataOut : Buffer R) :
    Outcome R :=
  let dataOut1 := dataOut.setLength fresh (sizeMul (sizeMul g.myNbSymbols g.mySpacing) sizeofComplexf)
  let inData := dataIn.getData
  let out := dataOut1.getData
  let sizeIn := dataIn.getLength / sizeofComplexf
  let sizeOut := dataOut1.getLength / sizeofComplexf
  if sizeIn != sizeMul g.myNbSymbols g.myNbCarriers then
    Outcome.thrown ProcessError.inputSizeNotValid dataOut1
  else if sizeOut != sizeMul g.myNbSymbols g.mySpacing then
    Outcome.thrown ProcessError.outputSizeNotValid dataOut1
  else
    match symbolLoop T g inData g.myNbSymbols
        { myFftIn := g.myFftIn, myFftOut := g.myFftOut, outData := out,
          inOff := 0, outOff := 0 } with
    | none => Outcome.undefined
    | some st =>
      Outcome.returned (toInt sizeOut) { dataOut1 with data := st.outData }
        { g with myFftIn := st.myFftIn, myFftOut := st.myFftOut }

/-! ## Layouts that tile the frame -/

/-- The layout members tile the frame and the source ranges lie in a block:
bin 0 or nothing, then the positive carriers, the guard, the negative carriers
up to the end of the frame. -/
def Fits {R : Type} (g : OfdmGenerator R) : Prop :=
  g.myPosDst ≤ 1 ∧
  g.myZeroDst = g.myPosDst + g.myPosSize ∧
  g.myZeroDst + g.myZeroSize = g.myNegDst ∧
  g.myNegDst + g.myNegSize = g.mySpacing ∧
  g.myPosSrc + g.myPosSize ≤ g.myNbCarriers ∧
  g.myNegSrc + g.myNegSize ≤ g.myNbCarriers ∧
  0 < g.mySpacing

/-! ## Concrete data for the worked scenarios -/

/-- Array contents that are nowhere zero, standing for memory as obtained. -/
def staleMem : Nat → Complexf Int := fun i => ⟨100 + i, 200 + i⟩

/-- The generator constructed for 1 symbol of 4 carriers in frames of 8, inverse. -/
def gen_1_4_8 : OfdmGenerator Int :=
  { myFftIn := (List.range 8).map staleMem, myFftOut := (List.range 8).map staleMem,
    myNbSymbols := 1, myNbCarriers := 4, mySpacing := 8,
    myPosSrc := 0, myPosDst := 1, myPosSize := 2,
    myNegSrc := 2, myNegDst := 6, myNegSize := 2,
    myZeroDst := 3, myZeroSize := 3 }

/-- The generator constructed for 2 symbols of 3 carriers in frames of 4, forward. -/
def gen_2_3_4 : OfdmGenerator Int :=
  { myFftIn := (List.range 4).map staleMem, myFftOut := (List.range 4).map staleMem,
    myNbSymbols := 2, myNbCarriers := 3, mySpacing := 4,
    myPosSrc := 1, myPosDst := 0, myPosSize := 2,
    myNegSrc := 0, myNegDst := 3, myNegSize := 1,
    myZeroDst := 2, myZeroSize := 1 }

/-- The generator constructed for 1 symbol of 2 carriers in frames of 2, inverse. -/
def gen_1_2_2 : OfdmGenerator Int :=
  { myFftIn := (List.range 2).map staleMem, myFftOut := (List.range 2).map staleMem,
    myNbSymbols := 1, myNbCarriers := 2, mySpacing := 2,
    myPosSrc := 0, myPosDst := 1, myPosSize := 1,
    myNegSrc := 1, myNegDst := 1, myNegSize := 1,
    myZeroDst := 2, myZeroSize := 4294967295 }

/-- Four carriers `c0 .. c3`. -/
def carriers4 : List (Complexf Int) := [⟨1, -1⟩, ⟨2, -2⟩, ⟨3, -3⟩, ⟨4, -4⟩]

/-- Two blocks of three carriers. -/
def carriers6 : List (Complexf Int) := [⟨1, -1⟩, ⟨2, -2⟩, ⟨3, -3⟩, ⟨4, -4⟩, ⟨5, -5⟩, ⟨6, -6⟩]

end OfdmGen

/-!
# ODR-DabMod: `endian_converter.hpp`

The byte swapping templates, on unsigned integer types: a value of a type of
`sz` bytes is a natural number below `2 ^ (8 * sz)`, and the conversion of a
result to the type `T` is the reduction modulo `2 ^ (8 * sz)`.
-/

/-- The enumeration `endianness`.  Its enumerator `host_endian` is one of the two,
fixed by the platform: the functions that use it take it as the argument `host`. -/
inductive endianness where
  | little_endian
  | big_endian
deriving DecidableEq

/-- The enumerator `network_endian = big_endian`. -/
def network_endian : endianness := endianness.big_endian

namespace Ofta

namespace endian

namespace detail

/-- The functor `swap_bytes<T, sz>` applied to `val`: the specialisations for
1, 2, 4 and 8 bytes, and the general template, which throws
`std::out_of_range` (`none`). -/
def swap_bytes (sz : Nat) (val : Nat) : Option Nat :=
  match sz with
  | 1 => some val
  | 2 => some ((((val >>> 8) &&& 0xff) ||| ((val &&& 0xff) <<< 8)) % 2 ^ 16)
  | 4 => some ((((val &&& 0xff000000) >>> 24) |||
      ((val &&& 0x00ff0000) >>> 8) |||
      ((val &&& 0x0000ff00) <<< 8) |||
      ((val &&& 0x000000ff) <<< 24)) % 2 ^ 32)
  | 8 => some ((((val &&& 0xff00000000000000) >>> 56) |||
      ((val &&& 0x00ff000000000000) >>> 40) |||
      ((val &&& 0x0000ff0000000000) >>> 24) |||
      ((val &&& 0x000000ff00000000) >>> 8) |||
      ((val &&& 0x00000000ff000000) <<< 8) |||
      ((val &&& 0x0000000000ff0000) <<< 24) |||
      ((val &&& 0x000000000000ff00) <<< 40) |||
      ((val &&& 0x00000000000000ff) <<< 56)) % 2 ^ 64)
  | _ => none

/-- The functor `do_byte_swap<from, to, T>` applied to `value`, with its two
specialisations for equal endianness. -/
def do_byte_swap (fromE toE : endianness) (sz : Nat) (value : Nat) : Option Nat :=
  match fromE, toE with
  | endianness.little_endian, endianness.little_endian => some value
  | endianness.big_endian, endianness.big_endian => some value
  | _, _ => swap_bytes sz value

end detail

/-- The function `ByteSwap<from, to, T>(value)`.  The static assertion admits types
of 1, 2, 4 or 8 bytes only (`none`: the call does not compile). -/
def ByteSwap (fromE toE : endianness) (sz : Nat) (value : Nat) : Option Nat :=
  if sz = 1 ∨ sz = 2 ∨ sz = 4 ∨ sz = 8 then detail.do_byte_swap fromE toE sz value
  else none

/-- The function `NtoH(value)` on a platform of endianness `host`. -/
def NtoH (host : endianness) (sz : Nat) (value : Nat) : Option Nat :=
  ByteSwap endianness.big_endian host sz value

/-- The function `HtoN(value)` on a platform of endianness `host`. -/
def HtoN (host : endianness) (sz : Nat) (value : Nat) : Option Nat :=
  ByteSwap host endianness.big_endian sz value

/-- Byte `i` of the value `v`, byte 0 being the least significant. -/
def byteOf (v i : Nat) : Nat := (v >>> (8 * i)) % 256

/-- The value of an unsigned integer whose bytes in memory, lowest address
first, are `bytes`, read on a little-endian host. -/
def readLittleEndian : List Nat → Nat
  | [] => 0
  | b :: rest => b + 256 * readLittleEndian rest

end endian

end Ofta

namespace OfdmGen

/-! ## `process` in the build with `USE_GPU_FFT` -/

/-- Modelled from the spec: the handle of the accelerated engine, `struct GPU_FFT`
of the GPU FFT library (declared outside ODR-DabMod), which "stages up to B
frames (one per symbol in a call) into device-resident memory".  `inp` is the
memory at `fft->in`, `out` the memory at `fft->out`, and `step` is `fft->step`,
the distance in samples from the frame of one job to the frame of the next. -/
structure GpuFft (R : Type) where
  inp : List (Complexf R)
  out : List (Complexf R)
  step : Nat
deriving DecidableEq

/-- The two stores `gpuIn[0].re = 0; gpuIn[0].im = 0;` for `gpuIn = &a[i]`.
`none`: the array has no element `i`. -/
def zeroBinAt {R : Type} [Zero R] (a : List (Complexf R)) (i : Nat) :
    Option (List (Complexf R)) :=
  match a[i]? with
  | none => none
  | some c =>
    let c1 : Complexf R := { c with re := 0 }
    let c2 : Complexf R := { c1 with im := 0 }
    some (a.set i c2)

/-- The four stores of the first loop of the GPU path into the frame at
`gpuIn = fft->in + base`: bin 0 cleared, the guard range cleared, the positive
and the negative carriers copied from the input at `in`. -/
def gpuScatter {R : Type} [Zero R] (g : OfdmGenerator R) (mem : List (Complexf R)) (base : Nat)
    (inData : List (Complexf R)) (inOff : Nat) : Option (List (Complexf R)) := do
  let m0 ← zeroBinAt mem base
  let m1 ← bzero m0 (base + g.myZeroDst) g.myZeroSize
  let m2 ← memcpy m1 (base + g.myPosDst) inData (inOff + g.myPosSrc) g.myPosSize
  memcpy m2 (base + g.myNegDst) inData (inOff + g.myNegSrc) g.myNegSize

/-- The first loop of the GPU path, by the number of passes left and the index
`i` of the pass: `gpuIn = fft->in + i*fft->step`, the stores, `in += myNbCarriers`. -/
def gpuScatterLoop {R : Type} [Zero R] (g : OfdmGenerator R) (step : Nat)
    (inData : List (Complexf R)) :
    Nat → Nat → List (Complexf R) → Nat → Option (List (Complexf R))
  | 0, _, mem, _ => some mem
  | n + 1, i, mem, inOff =>
    (gpuScatter g mem (i * step) inData inOff).bind
      (fun m => gpuScatterLoop g step inData n (i + 1) m (inOff + g.myNbCarriers))

/-- Modelled from the spec: the batched `execute` of the accelerated engine, which
"consumes all B prepared input frames and produces B output frames": for every
job `i` the transform `T` of the `n` samples at `fft->in + i*fft->step` is written
to the `n` samples at `fft->out + i*fft->step`.  By the number of jobs left and
the index `i` of the job. -/
def gpuFftExecuteJobs {R : Type} (T : List (Complexf R) → List (Complexf R)) (n step : Nat)
    (inp : List (Complexf R)) : Nat → Nat → List (Complexf R) → Option (List (Complexf R))
  | 0, _, out => some out
  | k + 1, i, out =>
    (memcpy out (i * step) (T ((inp.drop (i * step)).take n)) 0 n).bind
      (gpuFftExecuteJobs T n step inp k (i + 1))

/-- Modelled from the spec: `gpu_fft_execute(fft)` for an engine prepared for
`jobs` frames of `n` samples. -/
def gpu_fft_execute {R : Type} (T : List (Complexf R) → List (Complexf R)) (n jobs : Nat)
    (fft : GpuFft R) : Option (GpuFft R) :=
  (gpuFftExecuteJobs T n fft.step fft.inp jobs 0 fft.out).map (fun o => { fft with out := o })

/-- The second loop of the GPU path, by the number of passes left and the index
`i` of the pass: `gpuOut = fft->out + i*fft->step`, the copy of `mySpacing`
samples to `out`, `out += mySpacing`. -/
def gpuGatherLoop {R : Type} (g : OfdmGenerator R) (step : Nat) (gpuOut : List (Complexf R)) :
    Nat → Nat → List (Complexf R) → Nat → Option (List (Complexf R))
  | 0, _, outData, _ => some outData
  | n + 1, i, outData, outOff =>
    (memcpy outData outOff gpuOut (i * step) g.mySpacing).bind
      (fun o => gpuGatherLoop g step gpuOut n (i + 1) o (outOff + g.mySpacing))

/-- How a call of `process` ends in the build with `USE_GPU_FFT`. -/
inductive GpuOutcome (R : Type) where
  /-- An exception; `dataOut` is the output buffer as the call leaves it. -/
  | thrown (what : ProcessError) (dataOut : Buffer R)
  /-- A normal return of `ret`, with the output buffer and the engine after the call. -/
  | returned (ret : Int) (dataOut : Buffer R) (fft : GpuFft R)
  /-- An access outside an array: the behaviour of the C++ code is undefined. -/
  | undefined
deriving DecidableEq

/-- The method `OfdmGenerator::process(dataIn, dataOut)` of the build with
`USE_GPU_FFT`, the engine `fft` having been prepared for `myNbSymbols` frames of
`mySpacing` samples. -/
def processGpu {R : Type} [Zero R] (T : List (Complexf R) → List (Complexf R))
    (fresh : Nat → Complexf R) (g : OfdmGenerator R) (fft : GpuFft R)
    (dataIn dataOut : Buffer R) : GpuOutcome R :=
  let dataOut1 := dataOut.setLength fresh (sizeMul (sizeMul g.myNbSymbols g.mySpacing) sizeofComplexf)
  let inData := dataIn.getData
  let out := dataOut1.getData
  let sizeIn := dataIn.getLength / sizeofComplexf
  let sizeOut := dataOut1.getLength / sizeofComplexf
  if sizeIn != sizeMul g.myNbSymbols g.myNbCarriers then
    GpuOutcome.thrown ProcessError.inputSizeNotValid dataOut1
  else if sizeOut != sizeMul g.myNbSymbols g.mySpacing then
    GpuOutcome.thrown ProcessError.outputSizeNotValid dataOut1
  else
    match gpuScatterLoop g fft.step inData g.myNbSymbols 0 fft.inp 0 with
    | none => GpuOutcome.undefined
    | some gpuIn =>
      match gpu_fft_execute T g.mySpacing g.myNbSymbols { fft with inp := gpuIn } with
      | none => GpuOutcome.undefined
      | some fft1 =>
        match gpuGatherLoop g fft1.step fft1.out g.myNbSymbols 0 out 0 with
        | none => GpuOutcome.undefined
        | some outData =>
          GpuOutcome.returned (toInt sizeOut) { dataOut1 with data := outData } fft1

/-- Engine memory for 2 jobs with a step of 5 samples, holding stale samples. -/
def gpu_2_5 : GpuFft Int :=
  { inp := (List.range 10).map staleMem, out := (List.range 10).map staleMem, step := 5 }

/-! ## The constructor: what it stores -/

/-- The constructor on `nbCarriers ≤ spacing`: it returns a generator, having
acquired the two arrays and the plan, and the members hold the values of the
source's expressions. -/
theorem new_eq_of_le {R : Type} (memIn memOut : Nat → Complexf R)
    (nbSymbols nbCarriers spacing : Nat) (inverse : Bool) (h : nbCarriers ≤ spacing) :
    ∃ g, OfdmGenerator.new memIn memOut nbSymbols nbCarriers spacing inverse =
        ([Acquired.fftwfMalloc (sizeMul sizeofFftType (intToSize (toInt spacing))),
          Acquired.fftwfMalloc (sizeMul sizeofFftType (intToSize (toInt spacing))),
          Acquired.fftwfPlanDft1d (toInt spacing)], Except.ok g) ∧
      g.myNbSymbols = nbSymbols ∧ g.myNbCarriers = nbCarriers ∧ g.mySpacing = spacing ∧
      g.myPosDst = toUnsigned (if nbCarriers &&& 1 != 0 then 0 else 1) ∧
      g.myPosSrc = (if inverse then toUnsigned 0 else toUnsigned (nbCarriers / 2)) ∧
      g.myPosSize = toUnsigned (sizeAdd nbCarriers 1 / 2) ∧
      g.myNegDst = toUnsigned (sizeSub spacing (nbCarriers / 2)) ∧
      g.myNegSrc = (if inverse then toUnsigned (sizeAdd nbCarriers 1 / 2) else toUnsigned 0) ∧
      g.myNegSize = toUnsigned (nbCarriers / 2) ∧
      g.myZeroDst = uintAdd g.myPosDst g.myPosSize ∧
      g.myZeroSize = uintSub g.myNegDst g.myZeroDst := by
  have hn : ¬ nbCarriers > spacing := Nat.not_lt.mpr h
  cases inverse <;>
  · simp only [OfdmGenerator.new, if_neg hn]
    refine ⟨_, rfl, ?_⟩
    simp

/-- The parity test `nbCarriers & 1 ? 0 : 1`. -/
theorem parity_select (n : Nat) :
    toUnsigned (if n &&& 1 != 0 then 0 else 1) = if n % 2 = 1 then 0 else 1 := by
  rw [Nat.and_one_is_mod]
  rcases Nat.mod_two_eq_zero_or_one n with h | h <;> simp [h, toUnsigned, UINT_MOD]

/-- The members of a constructed generator as plain numbers, for a frame size
that an `unsigned` can hold. -/
theorem layout_of_new {R : Type} (memIn memOut : Nat → Complexf R)
    (nbSymbols nbCarriers spacing : Nat) (inverse : Bool)
    (h : nbCarriers ≤ spacing) (hS : spacing < UINT_MOD) (g : OfdmGenerator R)
    (hg : (OfdmGenerator.new memIn memOut nbSymbols nbCarriers spacing inverse).2 = Except.ok g) :
    g.myNbSymbols = nbSymbols ∧ g.myNbCarriers = nbCarriers ∧ g.mySpacing = spacing ∧
    g.myPosDst = (if nbCarriers % 2 = 1 then 0 else 1) ∧
    g.myPosSrc = (if inverse then 0 else nbCarriers / 2) ∧
    g.myPosSize = (nbCarriers + 1) / 2 ∧
    g.myNegDst = spacing - nbCarriers / 2 ∧
    g.myNegSrc = (if inverse then (nbCarriers + 1) / 2 else 0) ∧
    g.myNegSize = nbCarriers / 2 ∧
    g.myZeroDst = g.myPosDst + g.myPosSize ∧
    g.myZeroSize = uintSub g.myNegDst g.myZeroDst := by
  obtain ⟨g0, hnew, h1, h2, h3, h4, h5, h6, h7, h8, h9, h10, h11⟩ :=
    new_eq_of_le memIn memOut nbSymbols nbCarriers spacing inverse h
  rw [hnew] at hg
  have hgg : g0 = g := by injection hg
  subst hgg
  have hS2 : spacing < 4294967296 := by simpa [UINT_MOD] using hS
  have e6 : g0.myPosSize = (nbCarriers + 1) / 2 := by
    rw [h6]; simp only [toUnsigned, sizeAdd, UINT_MOD, SIZE_MOD, Nat.reducePow]; omega
  have e4 : g0.myPosDst = (if nbCarriers % 2 = 1 then 0 else 1) := by
    rw [h4, parity_select]
  have e10 : g0.myZeroDst = g0.myPosDst + g0.myPosSize := by
    rw [h10, e6, e4]; simp only [uintAdd, UINT_MOD, Nat.reducePow]
    split <;> omega
  refine ⟨h1, h2, h3, e4, ?_, e6, ?_, ?_, ?_, e10, h11⟩
  · rw [h5]
    cases inverse
    · simp only [Bool.false_eq_true, if_false, toUnsigned, UINT_MOD, Nat.reducePow]; omega
    · simp only [if_true, toUnsigned, UINT_MOD, Nat.reducePow, Nat.zero_mod]
  · rw [h7]; simp only [toUnsigned, sizeSub, UINT_MOD, SIZE_MOD, Nat.reducePow]; omega
  · rw [h8]
    cases inverse
    · simp only [Bool.false_eq_true, if_false, toUnsigned, UINT_MOD, Nat.reducePow, Nat.zero_mod]
    · simp only [if_true, toUnsigned, sizeAdd, UINT_MOD, SIZE_MOD, Nat.reducePow]; omega
  · rw [h9]; simp only [toUnsigned, UINT_MOD, Nat.reducePow]; omega

/-- The guard size of a constructed generator when the carriers and the bin 0
left empty for an even count fit the frame: the subtraction does not wrap. -/
theorem zeroSize_of_new {R : Type} (memIn memOut : Nat → Complexf R)
    (nbSymbols nbCarriers spacing : Nat) (inverse : Bool)
    (h : nbCarriers ≤ spacing) (hv : nbCarriers % 2 = 1 ∨ nbCarriers < spacing)
    (hS : spacing < UINT_MOD) (g : OfdmGenerator R)
    (hg : (OfdmGenerator.new memIn memOut nbSymbols nbCarriers spacing inverse).2 = Except.ok g) :
    g.myZeroSize = spacing - nbCarriers - g.myPosDst ∧
    g.myPosDst + nbCarriers ≤ spacing := by
  obtain ⟨-, -, -, e4, -, e6, e7, -, -, e10, e11⟩ :=
    layout_of_new memIn memOut nbSymbols nbCarriers spacing inverse h hS g hg
  have hS2 : spacing < 4294967296 := by simpa [UINT_MOD] using hS
  rw [e11, e10, e7, e6, e4]
  simp only [uintSub, UINT_MOD, Nat.reducePow]
  split <;> omega

/-- Half of `n` rounded up, as the integer expression `(n + 1) / 2`. -/
theorem ceil_half (n : Nat) : ⌈(n : ℚ) / 2⌉₊ = (n + 1) / 2 := by
  rcases Nat.even_or_odd' n with ⟨k, rfl | rfl⟩
  · have e : ((2 * k : ℕ) : ℚ) / 2 = (k : ℚ) := by push_cast; ring
    rw [e, Nat.ceil_natCast]; omega
  · have e : ((2 * k + 1 : ℕ) : ℚ) / 2 = (k : ℚ) + 1 / 2 := by push_cast; ring
    have e2 : (2 * k + 1 + 1) / 2 = k + 1 := by omega
    rw [e, e2, Nat.ceil_eq_iff (by omega)]
    constructor
    · simp
    · push_cast; linarith

/-- Half of `n` rounded down, as the integer expression `n / 2`. -/
theorem floor_half (n : Nat) : ⌊(n : ℚ) / 2⌋₊ = n / 2 := by
  have h : ⌊((n : ℕ) : ℚ) / ((2 : ℕ) : ℚ)⌋₊ = n / 2 := Nat.floor_div_eq_div n 2
  simpa using h

/-! ## Array operations, element by element -/

/-- The stores to bin 0 keep the length and change element 0 only. -/
theorem zeroBin0_spec {R : Type} [Zero R] (a r : List (Complexf R)) (h : zeroBin0 a = some r) :
    r.length = a.length ∧ ∀ k, r[k]? = if k = 0 then some Complexf.zero else a[k]? := by
  cases a with
  | nil => simp [zeroBin0] at h
  | cons c rest =>
    simp only [zeroBin0, Option.some.injEq] at h
    subst h
    refine ⟨rfl, fun k => ?_⟩
    cases k with
    | zero => simp [Complexf.zero]
    | succ k => simp

/-- The stores to bin 0 succeed on an array that has an element. -/
theorem zeroBin0_isSome {R : Type} [Zero R] (a : List (Complexf R)) (h : 0 < a.length) :
    ∃ r, zeroBin0 a = some r := by
  cases a with
  | nil => simp at h
  | cons c rest => exact ⟨_, rfl⟩

/-- Clearing a range keeps the length and changes the elements of the range only. -/
theorem bzero_spec {R : Type} [Zero R] (a r : List (Complexf R)) (off n : Nat)
    (h : bzero a off n = some r) :
    r.length = a.length ∧
    ∀ k, r[k]? = if off ≤ k ∧ k < off + n then some Complexf.zero else a[k]? := by
  unfold bzero at h
  split at h
  · rename_i hb
    simp only [Option.some.injEq] at h
    subst h
    constructor
    · simp only [List.length_append, List.length_take, List.length_replicate, List.length_drop]
      omega
    · intro k
      by_cases h1 : k < off
      · have hk : ¬ (off ≤ k ∧ k < off + n) := by omega
        rw [if_neg hk, List.append_assoc, List.getElem?_append_left (by simp; omega)]
        simp [List.getElem?_take, h1]
      · by_cases h2 : k < off + n
        · have hk : off ≤ k ∧ k < off + n := by omega
          rw [if_pos hk, List.getElem?_append_left (by simp; omega),
            List.getElem?_append_right (by simp; omega)]
          simp only [List.length_take]
          rw [List.getElem?_replicate]
          have : k - min off a.length < n := by omega
          simp [this]
        · have hk : ¬ (off ≤ k ∧ k < off + n) := by omega
          rw [if_neg hk, List.getElem?_append_right (by simp; omega)]
          simp only [List.length_append, List.length_take, List.length_replicate,
            List.getElem?_drop]
          congr 1
          omega
  · simp at h

/-- Copying keeps the length of the destination and changes the elements of the
destination range only, to the elements of the source range. -/
theorem memcpy_spec {β : Type} (dst src r : List β) (dOff sOff n : Nat)
    (h : memcpy dst dOff src sOff n = some r) :
    r.length = dst.length ∧
    ∀ k, r[k]? = if dOff ≤ k ∧ k < dOff + n then src[sOff + (k - dOff)]? else dst[k]? := by
  unfold memcpy at h
  split at h
  · rename_i hb
    simp only [Option.some.injEq] at h
    subst h
    constructor
    · simp only [List.length_append, List.length_take, List.length_drop]
      omega
    · intro k
      by_cases h1 : k < dOff
      · have hk : ¬ (dOff ≤ k ∧ k < dOff + n) := by omega
        rw [if_neg hk, List.append_assoc, List.getElem?_append_left (by simp; omega)]
        simp [List.getElem?_take, h1]
      · by_cases h2 : k < dOff + n
        · have hk : dOff ≤ k ∧ k < dOff + n := by omega
          rw [if_pos hk, List.getElem?_append_left (by simp; omega),
            List.getElem?_append_right (by simp; omega)]
          simp only [List.length_take]
          have e : min dOff dst.length = dOff := by omega
          have : k - dOff < n := by omega
          rw [e, List.getElem?_take, if_pos this, List.getElem?_drop]
        · have hk : ¬ (dOff ≤ k ∧ k < dOff + n) := by omega
          rw [if_neg hk, List.getElem?_append_right (by simp; omega)]
          simp only [List.length_append, List.length_take, List.length_drop,
            List.getElem?_drop]
          congr 1
          omega
  · simp at h

/-- Clearing succeeds on a range inside the array. -/
theorem bzero_isSome {R : Type} [Zero R] (a : List (Complexf R)) (off n : Nat)
    (h : off + n ≤ a.length) : ∃ r, bzero a off n = some r := by
  unfold bzero
  rw [if_pos h]
  exact ⟨_, rfl⟩

/-- Copying succeeds when both ranges are inside their arrays. -/
theorem memcpy_isSome {β : Type} (dst src : List β) (dOff sOff n : Nat)
    (h1 : dOff + n ≤ dst.length) (h2 : sOff + n ≤ src.length) :
    ∃ r, memcpy dst dOff src sOff n = some r := by
  unfold memcpy
  rw [if_pos ⟨h1, h2⟩]
  exact ⟨_, rfl⟩

/-! ## The scatter -/

/-- A constructed generator fits, when the carriers and the bin 0 left empty for
an even count fit the frame. -/
theorem fits_of_new {R : Type} (memIn memOut : Nat → Complexf R)
    (nbSymbols nbCarriers spacing : Nat) (inverse : Bool)
    (h : nbCarriers ≤ spacing) (hv : nbCarriers % 2 = 1 ∨ nbCarriers < spacing)
    (hS : spacing < UINT_MOD) (g : OfdmGenerator R)
    (hg : (OfdmGenerator.new memIn memOut nbSymbols nbCarriers spacing inverse).2 = Except.ok g) :
    Fits g := by
  obtain ⟨-, e2, e3, e4, e5, e6, e7, e8, e9, e10, -⟩ :=
    layout_of_new memIn memOut nbSymbols nbCarriers spacing inverse h hS g hg
  obtain ⟨ez, hz⟩ := zeroSize_of_new memIn memOut nbSymbols nbCarriers spacing inverse h hv hS g hg
  have hp : g.myPosDst = 0 ∧ nbCarriers % 2 = 1 ∨ g.myPosDst = 1 ∧ nbCarriers % 2 = 0 := by
    rw [e4]; split <;> omega
  have hsrc : g.myPosSrc + g.myPosSize ≤ nbCarriers ∧ g.myNegSrc + g.myNegSize ≤ nbCarriers := by
    rw [e5, e8, e6, e9]
    cases inverse
    · simp only [Bool.false_eq_true, if_false]; omega
    · simp only [if_true]; omega
  unfold Fits
  rw [e2, e3]
  refine ⟨?_, e10, ?_, ?_, hsrc.1, hsrc.2, ?_⟩ <;> omega

/-- The frame after the scatter, element by element: the positive carriers, the
negative carriers, zero elsewhere; nothing of the frame before is left. -/
theorem scatter_spec {R : Type} [Zero R] (g : OfdmGenerator R) (hf : Fits g)
    (fftIn inData : List (Complexf R)) (inOff : Nat)
    (hlen : fftIn.length = g.mySpacing) (hin : inOff + g.myNbCarriers ≤ inData.length) :
    ∃ f, scatter g fftIn inData inOff = some f ∧ f.length = g.mySpacing ∧
      ∀ k, k < g.mySpacing → f[k]? =
        if g.myPosDst ≤ k ∧ k < g.myPosDst + g.myPosSize then
          inData[inOff + g.myPosSrc + (k - g.myPosDst)]?
        else if g.myNegDst ≤ k then inData[inOff + g.myNegSrc + (k - g.myNegDst)]?
        else some Complexf.zero := by
  obtain ⟨h1, h2, h3, h4, h5, h6, h7⟩ := hf
  obtain ⟨f0, e0⟩ := zeroBin0_isSome fftIn (by omega)
  obtain ⟨l0, s0⟩ := zeroBin0_spec _ _ e0
  obtain ⟨f1, e1⟩ := bzero_isSome f0 g.myZeroDst g.myZeroSize (by omega)
  obtain ⟨l1, s1⟩ := bzero_spec _ _ _ _ e1
  obtain ⟨f2, e2⟩ := memcpy_isSome f1 inData g.myPosDst (inOff + g.myPosSrc) g.myPosSize
    (by omega) (by omega)
  obtain ⟨l2, s2⟩ := memcpy_spec _ _ _ _ _ _ e2
  obtain ⟨f3, e3⟩ := memcpy_isSome f2 inData g.myNegDst (inOff + g.myNegSrc) g.myNegSize
    (by omega) (by omega)
  obtain ⟨l3, s3⟩ := memcpy_spec _ _ _ _ _ _ e3
  refine ⟨f3, ?_, by omega, fun k hk => ?_⟩
  · simp [scatter, e0, e1, e2, e3]
  · rw [s3, s2, s1, s0]
    by_cases c1 : g.myPosDst ≤ k ∧ k < g.myPosDst + g.myPosSize
    · have c2 : ¬ (g.myNegDst ≤ k ∧ k < g.myNegDst + g.myNegSize) := by omega
      simp only [if_neg c2, if_pos c1]
    · by_cases c2 : g.myNegDst ≤ k
      · have c3 : g.myNegDst ≤ k ∧ k < g.myNegDst + g.myNegSize := by omega
        simp only [if_pos c3, if_neg c1, if_pos c2]
      · have c3 : ¬ (g.myNegDst ≤ k ∧ k < g.myNegDst + g.myNegSize) := by omega
        by_cases c4 : g.myZeroDst ≤ k ∧ k < g.myZeroDst + g.myZeroSize
        · simp only [if_neg c3, if_neg c1, if_neg c2, if_pos c4]
        · have c5 : k = 0 := by omega
          simp only [if_neg c3, if_neg c1, if_neg c2, if_neg c4, if_pos c5]

/-- The scatter result does not depend on what the frame held before. -/
theorem scatter_congr {R : Type} [Zero R] (g : OfdmGenerator R) (hf : Fits g)
    (z1 z2 inData : List (Complexf R)) (inOff : Nat)
    (h1 : z1.length = g.mySpacing) (h2 : z2.length = g.mySpacing)
    (hin : inOff + g.myNbCarriers ≤ inData.length) :
    scatter g z1 inData inOff = scatter g z2 inData inOff := by
  obtain ⟨f1, e1, l1, s1⟩ := scatter_spec g hf z1 inData inOff h1 hin
  obtain ⟨f2, e2, l2, s2⟩ := scatter_spec g hf z2 inData inOff h2 hin
  rw [e1, e2]
  congr 1
  apply List.ext_getElem?
  intro k
  by_cases hk : k < g.mySpacing
  · rw [s1 k hk, s2 k hk]
  · rw [List.getElem?_eq_none (by omega), List.getElem?_eq_none (by omega)]

/-- The scatter reads the block at `in` only: it gives the same frame on the
block taken alone. -/
theorem scatter_block {R : Type} [Zero R] (g : OfdmGenerator R) (hf : Fits g)
    (z inData : List (Complexf R)) (inOff : Nat)
    (hz : z.length = g.mySpacing) (hin : inOff + g.myNbCarriers ≤ inData.length) :
    scatter g z inData inOff = scatter g z ((inData.drop inOff).take g.myNbCarriers) 0 := by
  have hb : 0 + g.myNbCarriers ≤ ((inData.drop inOff).take g.myNbCarriers).length := by
    simp only [List.length_take, List.length_drop]; omega
  obtain ⟨f1, e1, l1, s1⟩ := scatter_spec g hf z inData inOff hz hin
  obtain ⟨f2, e2, l2, s2⟩ := scatter_spec g hf z _ 0 hz hb
  rw [e1, e2]
  congr 1
  apply List.ext_getElem?
  intro k
  by_cases hk : k < g.mySpacing
  · rw [s1 k hk, s2 k hk]
    obtain ⟨h1, h2, h3, h4, h5, h6, h7⟩ := hf
    by_cases c1 : g.myPosDst ≤ k ∧ k < g.myPosDst + g.myPosSize
    · simp only [if_pos c1]
      rw [List.getElem?_take, List.getElem?_drop, if_pos (by omega)]
      congr 1; omega
    · by_cases c2 : g.myNegDst ≤ k
      · simp only [if_neg c1, if_pos c2]
        rw [List.getElem?_take, List.getElem?_drop, if_pos (by omega)]
        congr 1; omega
      · simp only [if_neg c1, if_neg c2]
  · rw [List.getElem?_eq_none (by omega), List.getElem?_eq_none (by omega)]

/-! ## The loop of `process` -/

/-- One pass of the loop on a generator that fits: the frame is the scatter of
the block at `in`, its transform goes to the `mySpacing` samples at `out`, and
both pointers advance by one block. -/
theorem symbolStep_spec {R : Type} [Zero R] (T : List (Complexf R) → List (Complexf R))
    (g : OfdmGenerator R) (hf : Fits g)
    (hT : ∀ f : List (Complexf R), f.length = g.mySpacing → (T f).length = g.mySpacing)
    (inData : List (Complexf R)) (st : LoopState R)
    (hlen : st.myFftIn.length = g.mySpacing)
    (hin : st.inOff + g.myNbCarriers ≤ inData.length)
    (hout : st.outOff + g.mySpacing ≤ st.outData.length) :
    ∃ f st1, scatter g st.myFftIn inData st.inOff = some f ∧
      symbolStep T g inData st = some st1 ∧
      st1.myFftIn = f ∧ st1.myFftOut = T f ∧ f.length = g.mySpacing ∧
      st1.inOff = st.inOff + g.myNbCarriers ∧ st1.outOff = st.outOff + g.mySpacing ∧
      st1.outData.length = st.outData.length ∧
      ∀ k, st1.outData[k]? =
        if st.outOff ≤ k ∧ k < st.outOff + g.mySpacing then (T f)[k - st.outOff]?
        else st.outData[k]? := by
  obtain ⟨f, ef, lf, -⟩ := scatter_spec g hf st.myFftIn inData st.inOff hlen hin
  have hTf := hT f lf
  obtain ⟨o, eo⟩ := memcpy_isSome st.outData (T f) st.outOff 0 g.mySpacing hout (by omega)
  obtain ⟨lo, so⟩ := memcpy_spec _ _ _ _ _ _ eo
  refine ⟨f, LoopState.mk f (T f) o (st.inOff + g.myNbCarriers) (st.outOff + g.mySpacing),
    ef, ?_, rfl, rfl, lf, rfl, rfl, lo, ?_⟩
  · simp only [symbolStep, ef, eo, Option.bind_eq_bind, Option.some_bind]
  · intro k
    rw [so k]
    simp

/-- The loop on a generator that fits, for `n` passes from any state with room
for `n` blocks: it ends, block `i` of the output written is the transform of the
scatter of block `i` of the input read (from whatever frame), and the output
outside the `n` blocks is as before. -/
theorem symbolLoop_spec {R : Type} [Zero R] (T : List (Complexf R) → List (Complexf R))
    (g : OfdmGenerator R) (hf : Fits g)
    (hT : ∀ f : List (Complexf R), f.length = g.mySpacing → (T f).length = g.mySpacing)
    (inData : List (Complexf R)) (n : Nat) :
    ∀ st : LoopState R, st.myFftIn.length = g.mySpacing →
      st.inOff + n * g.myNbCarriers ≤ inData.length →
      st.outOff + n * g.mySpacing ≤ st.outData.length →
      ∃ st1, symbolLoop T g inData n st = some st1 ∧
        st1.outData.length = st.outData.length ∧
        st1.myFftIn.length = g.mySpacing ∧
        (∀ k, k < st.outOff ∨ st.outOff + n * g.mySpacing ≤ k →
          st1.outData[k]? = st.outData[k]?) ∧
        ∀ i, i < n → ∀ z : List (Complexf R), z.length = g.mySpacing →
          ∃ f, scatter g z inData (st.inOff + i * g.myNbCarriers) = some f ∧
            ∀ k, k < g.mySpacing → st1.outData[st.outOff + i * g.mySpacing + k]? = (T f)[k]? := by
  induction n with
  | zero =>
    intro st hlen _ _
    exact ⟨st, rfl, rfl, hlen, fun _ _ => rfl, fun i hi => absurd hi (Nat.not_lt_zero i)⟩
  | succ n ih =>
    intro st hlen hin hout
    rw [Nat.succ_mul] at hin hout
    obtain ⟨f, st1, ef, es, e1, -, lf, e3, e4, e5, e6⟩ :=
      symbolStep_spec T g hf hT inData st hlen (by omega) (by omega)
    obtain ⟨st2, el, l2, lf2, keep, blocks⟩ :=
      ih st1 (by rw [e1]; exact lf) (by rw [e3]; omega) (by rw [e4, e5]; omega)
    refine ⟨st2, ?_, by omega, lf2, ?_, ?_⟩
    · simp only [symbolLoop, es, Option.some_bind]
      exact el
    · intro k hk
      rw [Nat.succ_mul] at hk
      rw [keep k (by rw [e4]; omega), e6 k, if_neg (by omega)]
    · intro i hi z hz
      cases i with
      | zero =>
        have hc := scatter_congr g hf z st.myFftIn inData st.inOff hz hlen (by omega)
        refine ⟨f, ?_, fun k hk => ?_⟩
        · simp only [Nat.zero_mul, Nat.add_zero]
          rw [hc, ef]
        · simp only [Nat.zero_mul, Nat.add_zero]
          rw [keep _ (by rw [e4]; omega), e6, if_pos (by omega)]
          congr 1
          omega
      | succ i =>
        obtain ⟨f2, ef2, hb⟩ := blocks i (by omega) z hz
        refine ⟨f2, ?_, fun k hk => ?_⟩
        · rw [← ef2, e3, Nat.succ_mul]
          congr 1
          omega
        · rw [← hb k hk, e4, Nat.succ_mul]
          congr 1
          omega

/-- The storage of a buffer after set-length holds `len / 8` samples. -/
theorem setLength_data_length {R : Type} (fresh : Nat → Complexf R) (b : Buffer R) (len : Nat) :
    (b.setLength fresh len).data.length = len / sizeofComplexf := by
  simp [Buffer.setLength]

/-- The call `process` on a generator that fits, with an input of
`myNbSymbols * myNbCarriers` samples and an output size that a `size_t` holds:
it returns, and block `i` of the output is the transform of the scatter of block
`i` of the input (from whatever frame). -/
theorem process_returns {R : Type} [Zero R] (T : List (Complexf R) → List (Complexf R))
    (fresh : Nat → Complexf R) (g : OfdmGenerator R) (hf : Fits g)
    (hT : ∀ f : List (Complexf R), f.length = g.mySpacing → (T f).length = g.mySpacing)
    (hlen : g.myFftIn.length = g.mySpacing)
    (hNS : g.myNbCarriers ≤ g.mySpacing)
    (hsz : g.myNbSymbols * g.mySpacing * sizeofComplexf < SIZE_MOD)
    (dataIn dataOut : Buffer R)
    (hL : dataIn.getLength / sizeofComplexf = g.myNbSymbols * g.myNbCarriers)
    (hD : g.myNbSymbols * g.myNbCarriers ≤ dataIn.getData.length) :
    ∃ out gen, process T fresh g dataIn dataOut =
        Outcome.returned (toInt (g.myNbSymbols * g.mySpacing)) out gen ∧
      out.getLength = g.myNbSymbols * g.mySpacing * sizeofComplexf ∧
      out.getData.length = g.myNbSymbols * g.mySpacing ∧
      ∀ i, i < g.myNbSymbols → ∀ z : List (Complexf R), z.length = g.mySpacing →
        ∃ f, scatter g z dataIn.getData (i * g.myNbCarriers) = some f ∧
          ∀ k, k < g.mySpacing → out.getData[i * g.mySpacing + k]? = (T f)[k]? := by
  have h8 : sizeofComplexf = 8 := rfl
  have hM : SIZE_MOD = 18446744073709551616 := by simp [SIZE_MOD]
  rw [h8, hM] at hsz
  have hmul : g.myNbSymbols * g.myNbCarriers ≤ g.myNbSymbols * g.mySpacing :=
    Nat.mul_le_mul_left _ hNS
  have e1 : sizeMul g.myNbSymbols g.mySpacing = g.myNbSymbols * g.mySpacing := by
    simp only [sizeMul, hM]; omega
  have e2 : sizeMul (g.myNbSymbols * g.mySpacing) sizeofComplexf
      = g.myNbSymbols * g.mySpacing * 8 := by
    simp only [sizeMul, hM, h8]; omega
  have e3 : sizeMul g.myNbSymbols g.myNbCarriers = g.myNbSymbols * g.myNbCarriers := by
    simp only [sizeMul, hM]; omega
  have e4 : g.myNbSymbols * g.mySpacing * 8 / sizeofComplexf = g.myNbSymbols * g.mySpacing := by
    rw [h8]; omega
  have hOut : (dataOut.setLength fresh (g.myNbSymbols * g.mySpacing * 8)).getLength
      / sizeofComplexf = g.myNbSymbols * g.mySpacing := e4
  have ld : (dataOut.setLength fresh (g.myNbSymbols * g.mySpacing * 8)).getData.length
      = g.myNbSymbols * g.mySpacing := by
    simp only [Buffer.getData]
    rw [setLength_data_length, e4]
  obtain ⟨st1, el, l1, -, -, blocks⟩ := symbolLoop_spec T g hf hT dataIn.getData g.myNbSymbols
    { myFftIn := g.myFftIn, myFftOut := g.myFftOut,
      outData := (dataOut.setLength fresh (g.myNbSymbols * g.mySpacing * 8)).getData,
      inOff := 0, outOff := 0 }
    hlen (by simpa using hD) (by simp only [ld]; omega)
  refine ⟨{ (dataOut.setLength fresh (g.myNbSymbols * g.mySpacing * 8)) with data := st1.outData },
    { g with myFftIn := st1.myFftIn, myFftOut := st1.myFftOut }, ?_, ?_, ?_, ?_⟩
  · simp only [process, e1, e2, e3, hL, hOut, bne_self_eq_false, Bool.false_eq_true, if_false]
    rw [el]
  · simp [Buffer.getLength, Buffer.setLength, h8]
  · simp only [Buffer.getData] at l1 ld ⊢
    rw [l1, ld]
  · intro i hi z hz
    obtain ⟨f, ef, hb⟩ := blocks i hi z hz
    refine ⟨f, by simpa using ef, fun k hk => ?_⟩
    have := hb k hk
    simpa [Buffer.getData] using this

/-! ## Properties of the specification -/

/-- C1: the stored layout is claimed to satisfy
`posDst + posSize + zeroSize + negSize == S` for every `1 <= N <= S`.  For
`N = S = 2` the constructor passes its check and stores `posDst = 1`,
`posSize = 1`, `negSize = 1` and, the subtraction `myNegDst - myZeroDst = 1 - 2`
wrapping, `zeroSize = 4294967295`: the four add up to `4294967298`, not to `2`. -/
theorem C1_layout_sum_at_2_2 :
    (OfdmGenerator.new staleMem staleMem 1 2 2 true).2 = Except.ok gen_1_2_2 ∧
    gen_1_2_2.myPosDst + gen_1_2_2.myPosSize + gen_1_2_2.myZeroSize + gen_1_2_2.myNegSize
      = 4294967298 ∧
    gen_1_2_2.myPosDst + gen_1_2_2.myPosSize + gen_1_2_2.myZeroSize + gen_1_2_2.myNegSize
      ≠ gen_1_2_2.mySpacing :=
  ⟨rfl, by decide, by decide⟩

/-- C2: with `nbCarriers == spacing` the stored `zeroSize` is claimed to be 0.
For `N = S = 2`, in either direction, the constructor stores
`zeroSize = 4294967295`, and `process` on an input of the right size then clears
outside the frame (undefined behaviour). -/
theorem C2_zeroSize_at_2_2 :
    (OfdmGenerator.new staleMem staleMem 1 2 2 true).2 = Except.ok gen_1_2_2 ∧
    (∃ g : OfdmGenerator Int,
      (OfdmGenerator.new staleMem staleMem 1 2 2 false).2 = Except.ok g ∧
      g.myZeroSize = 4294967295) ∧
    gen_1_2_2.myZeroSize = 4294967295 ∧ gen_1_2_2.myZeroSize ≠ 0 ∧
    process id staleMem gen_1_2_2 ⟨16, [⟨1, -1⟩, ⟨2, -2⟩]⟩ ⟨0, []⟩ = Outcome.undefined :=
  ⟨rfl, ⟨_, rfl, rfl⟩, rfl, by decide, rfl⟩

/-- C3: for `1 <= N <= S` (with `S` a value that the `unsigned` members hold) and
both directions the constructor returns a generator with
`posSize == ceil(N/2)`, `negSize == floor(N/2)` and `posSize + negSize == N`. -/
theorem C3_segment_sizes {R : Type} (memIn memOut : Nat → Complexf R)
    (nbSymbols N S : Nat) (inverse : Bool)
    (hN : 1 ≤ N) (h : N ≤ S) (hS : S < UINT_MOD) :
    ∃ g, (OfdmGenerator.new memIn memOut nbSymbols N S inverse).2 = Except.ok g ∧
      g.myPosSize = ⌈(N : ℚ) / 2⌉₊ ∧ g.myNegSize = ⌊(N : ℚ) / 2⌋₊ ∧
      g.myPosSize = (N + 1) / 2 ∧ g.myNegSize = N / 2 ∧
      g.myPosSize + g.myNegSize = N := by
  have _ := hN
  obtain ⟨g, hg, -⟩ := new_eq_of_le memIn memOut nbSymbols N S inverse h
  have hg2 : (OfdmGenerator.new memIn memOut nbSymbols N S inverse).2 = Except.ok g := by
    rw [hg]
  obtain ⟨-, -, -, -, -, e6, -, -, e9, -, -⟩ :=
    layout_of_new memIn memOut nbSymbols N S inverse h hS g hg2
  refine ⟨g, hg2, ?_, ?_, e6, e9, ?_⟩
  · rw [e6, ceil_half]
  · rw [e9, floor_half]
  · rw [e6, e9]; omega

/-- C3 at 5 carriers in frames of 8, forward. -/
theorem C3_segment_sizes_witness :
    1 ≤ 5 ∧ 5 ≤ 8 ∧ 8 < UINT_MOD ∧
    ∃ g, (OfdmGenerator.new staleMem staleMem 1 5 8 false).2 = Except.ok g ∧
      g.myPosSize = ⌈((5 : ℕ) : ℚ) / 2⌉₊ ∧ g.myNegSize = ⌊((5 : ℕ) : ℚ) / 2⌋₊ ∧
      g.myPosSize = (5 + 1) / 2 ∧ g.myNegSize = 5 / 2 ∧
      g.myPosSize + g.myNegSize = 5 :=
  ⟨by decide, by decide, by decide,
    C3_segment_sizes staleMem staleMem 1 5 8 false (by decide) (by decide) (by decide)⟩

/-- C4: for `1 <= N <= S` (with `S` a value that the `unsigned` members hold) and
both directions the negative segment ends at the frame boundary:
`negDst + negSize == S` and `negSize == S - negDst`; `negDst` is `S - N/2`
without wrap-around. -/
theorem C4_negative_segment_end {R : Type} (memIn memOut : Nat → Complexf R)
    (nbSymbols N S : Nat) (inverse : Bool)
    (hN : 1 ≤ N) (h : N ≤ S) (hS : S < UINT_MOD) :
    ∃ g, (OfdmGenerator.new memIn memOut nbSymbols N S inverse).2 = Except.ok g ∧
      g.myNegDst + g.myNegSize = S ∧ g.myNegSize = S - g.myNegDst ∧
      g.myNegDst = S - N / 2 ∧ N / 2 ≤ S := by
  have _ := hN
  obtain ⟨g, hg, -⟩ := new_eq_of_le memIn memOut nbSymbols N S inverse h
  have hg2 : (OfdmGenerator.new memIn memOut nbSymbols N S inverse).2 = Except.ok g := by
    rw [hg]
  obtain ⟨-, -, -, -, -, -, e7, -, e9, -, -⟩ :=
    layout_of_new memIn memOut nbSymbols N S inverse h hS g hg2
  refine ⟨g, hg2, ?_, ?_, e7, ?_⟩
  · rw [e7, e9]; omega
  · rw [e7, e9]; omega
  · omega

/-- C4 at 1536 carriers in frames of 2048, inverse. -/
theorem C4_negative_segment_end_witness :
    1 ≤ 1536 ∧ 1536 ≤ 2048 ∧ 2048 < UINT_MOD ∧
    ∃ g, (OfdmGenerator.new staleMem staleMem 76 1536 2048 true).2 = Except.ok g ∧
      g.myNegDst + g.myNegSize = 2048 ∧ g.myNegSize = 2048 - g.myNegDst ∧
      g.myNegDst = 2048 - 1536 / 2 ∧ 1536 / 2 ≤ 2048 :=
  ⟨by decide, by decide, by decide,
    C4_negative_segment_end staleMem staleMem 76 1536 2048 true
      (by decide) (by decide) (by decide)⟩

/-- C5 as stated fails: 5 carriers in frames of 8, inverse, do not give the layout
`posDst=0, posSize=3, negDst=5, negSize=2, zeroDst=3, zeroSize=2`. -/
theorem C5_scenario_as_stated_fails :
    ¬ ∃ g : OfdmGenerator Int,
      (OfdmGenerator.new staleMem staleMem 1 5 8 true).2 = Except.ok g ∧
      g.myPosDst = 0 ∧ g.myPosSize = 3 ∧ g.myNegDst = 5 ∧ g.myNegSize = 2 ∧
      g.myZeroDst = 3 ∧ g.myZeroSize = 2 := by
  rintro ⟨g, hg, -, -, h5, -⟩
  obtain ⟨-, -, -, -, -, -, e7, -⟩ :=
    layout_of_new staleMem staleMem 1 5 8 true (by decide) (by decide) g hg
  rw [e7] at h5
  exact absurd h5 (by decide)

/-- C5, amended: 5 carriers in frames of 8, inverse, give the layout
`posDst=0, posSize=3, negDst=6, negSize=2, zeroDst=3, zeroSize=3`, so that
`negDst + negSize = 8` and the three ranges `[0,3)`, `[3,6)`, `[6,8)` cover every
frame index, 7 included. -/
theorem C5_scenario_five_of_eight {R : Type} (memIn memOut : Nat → Complexf R)
    (nbSymbols : Nat) :
    ∃ g, (OfdmGenerator.new memIn memOut nbSymbols 5 8 true).2 = Except.ok g ∧
      g.myPosDst = 0 ∧ g.myPosSize = 3 ∧ g.myNegDst = 6 ∧ g.myNegSize = 2 ∧
      g.myZeroDst = 3 ∧ g.myZeroSize = 3 ∧ g.myNegDst + g.myNegSize = 8 ∧
      g.myPosDst + g.myPosSize = g.myZeroDst ∧ g.myZeroDst + g.myZeroSize = g.myNegDst :=
  ⟨_, rfl, rfl, rfl, rfl, rfl, rfl, rfl, rfl, rfl, rfl⟩

/-- C6 as stated fails: a call with an input one byte short (31 bytes for 1 symbol
of 4 carriers) raises the input-size error, and the output buffer, empty before
the call, is 64 bytes long after it. -/
theorem C6_output_resized_on_input_error :
    (⟨31, carriers4⟩ : Buffer Int).getLength / sizeofComplexf ≠ 1 * 4 ∧
    ∃ out, process id staleMem gen_1_4_8 ⟨31, carriers4⟩ ⟨0, []⟩
        = Outcome.thrown ProcessError.inputSizeNotValid out ∧
      out.getLength = 64 ∧ out.getData.length = 8 ∧ out ≠ ⟨0, []⟩ :=
  ⟨by decide, _, rfl, rfl, rfl, by decide⟩

/-- C6, amended: on an input-size failure `process` has written no sample but has
set the length of the output buffer.  For every generator and every input whose
sample count differs from `nbSymbols x nbCarriers`, the call raises the
input-size error and leaves the output buffer with the length
`nbSymbols x spacing x 8` bytes; each sample the buffer held before within that
length is unchanged, and a buffer that had that length already is unchanged. -/
theorem C6_input_error_only_resizes {R : Type} [Zero R]
    (T : List (Complexf R) → List (Complexf R)) (fresh : Nat → Complexf R)
    (g : OfdmGenerator R) (dataIn dataOut : Buffer R)
    (hL : dataIn.getLength / sizeofComplexf ≠ sizeMul g.myNbSymbols g.myNbCarriers) :
    ∃ out, process T fresh g dataIn dataOut
        = Outcome.thrown ProcessError.inputSizeNotValid out ∧
      out.getLength = sizeMul (sizeMul g.myNbSymbols g.mySpacing) sizeofComplexf ∧
      out.getData.length = out.getLength / sizeofComplexf ∧
      (∀ i, i < out.getData.length → i < dataOut.getData.length →
        out.getData[i]? = dataOut.getData[i]?) ∧
      (dataOut.getLength = sizeMul (sizeMul g.myNbSymbols g.mySpacing) sizeofComplexf →
        dataOut.getData.length = dataOut.getLength / sizeofComplexf → out = dataOut) := by
  refine ⟨dataOut.setLength fresh (sizeMul (sizeMul g.myNbSymbols g.mySpacing) sizeofComplexf),
    ?_, rfl, ?_, ?_, ?_⟩
  · have hb : (dataIn.getLength / sizeofComplexf != sizeMul g.myNbSymbols g.myNbCarriers)
        = true := by simpa using hL
    simp only [process, hb, if_true]
  · simp [Buffer.getData, Buffer.getLength, Buffer.setLength]
  · intro i hi hi2
    simp only [Buffer.getData, Buffer.setLength, List.length_map, List.length_range] at hi hi2 ⊢
    rw [List.getElem?_map, List.getElem?_range hi]
    simp only [Option.map_some']
    rw [List.getD_eq_getElem?_getD, List.getElem?_eq_getElem hi2]
    rfl
  · intro h1 h2
    cases dataOut with
    | mk len data =>
      simp only [Buffer.getLength, Buffer.getData] at h1 h2
      simp only [Buffer.setLength, ← h1, Buffer.mk.injEq, true_and]
      apply List.ext_getElem?
      intro k
      by_cases hk : k < len / sizeofComplexf
      · rw [List.getElem?_map, List.getElem?_range hk]
        simp only [Option.map_some']
        rw [List.getD_eq_getElem?_getD, List.getElem?_eq_getElem (by omega)]
        rfl
      · rw [List.getElem?_eq_none (by simpa using hk), List.getElem?_eq_none (by omega)]

/-- C6, amended, at the input one byte short: the buffer of 16 bytes is resized
to 64 bytes and keeps its two samples. -/
theorem C6_input_error_only_resizes_witness :
    (⟨31, carriers4⟩ : Buffer Int).getLength / sizeofComplexf
        ≠ sizeMul gen_1_4_8.myNbSymbols gen_1_4_8.myNbCarriers ∧
    ∃ out, process id staleMem gen_1_4_8 ⟨31, carriers4⟩ ⟨16, [⟨7, 7⟩, ⟨9, 9⟩]⟩
        = Outcome.thrown ProcessError.inputSizeNotValid out ∧
      out.getLength = sizeMul (sizeMul gen_1_4_8.myNbSymbols gen_1_4_8.mySpacing) sizeofComplexf ∧
      out.getData.length = out.getLength / sizeofComplexf ∧
      (∀ i, i < out.getData.length →
        i < (⟨16, [⟨7, 7⟩, ⟨9, 9⟩]⟩ : Buffer Int).getData.length →
        out.getData[i]? = (⟨16, [⟨7, 7⟩, ⟨9, 9⟩]⟩ : Buffer Int).getData[i]?) ∧
      ((⟨16, [⟨7, 7⟩, ⟨9, 9⟩]⟩ : Buffer Int).getLength
          = sizeMul (sizeMul gen_1_4_8.myNbSymbols gen_1_4_8.mySpacing) sizeofComplexf →
        (⟨16, [⟨7, 7⟩, ⟨9, 9⟩]⟩ : Buffer Int).getData.length
          = (⟨16, [⟨7, 7⟩, ⟨9, 9⟩]⟩ : Buffer Int).getLength / sizeofComplexf →
        out = ⟨16, [⟨7, 7⟩, ⟨9, 9⟩]⟩) :=
  ⟨by decide,
    C6_input_error_only_resizes id staleMem gen_1_4_8 ⟨31, carriers4⟩ ⟨16, [⟨7, 7⟩, ⟨9, 9⟩]⟩
      (by decide)⟩

/-- C7 as stated fails: for 1 symbol of 4 carriers an input of 33 bytes differs
from `1 x 4 x 8 = 32` bytes, yet `process` raises no input-size error: it
returns 8. -/
theorem C7_surplus_bytes_accepted :
    (⟨33, carriers4⟩ : Buffer Int).getLength ≠ 1 * 4 * 8 ∧
    (∃ out gen, process id staleMem gen_1_4_8 ⟨33, carriers4⟩ ⟨0, []⟩
        = Outcome.returned 8 out gen) ∧
    ¬ ∃ out, process id staleMem gen_1_4_8 ⟨33, carriers4⟩ ⟨0, []⟩
        = Outcome.thrown ProcessError.inputSizeNotValid out := by
  have e : ∃ out gen, process id staleMem gen_1_4_8 ⟨33, carriers4⟩ ⟨0, []⟩
      = Outcome.returned 8 out gen := ⟨_, _, rfl⟩
  refine ⟨by decide, e, ?_⟩
  rintro ⟨out, h⟩
  obtain ⟨o, gn, he⟩ := e
  rw [he] at h
  cases h

/-- C7, amended: `process` raises the input-size error if and only if
`floor(L / 8)` differs from `nbSymbols x nbCarriers`, that is if and only if the
byte length `L` lies outside `[8 n, 8 n + 7]` for `n = nbSymbols x nbCarriers`
(a product that a `size_t` holds): up to 7 bytes after the last whole sample are
accepted. -/
theorem C7_input_size_error_iff {R : Type} [Zero R]
    (T : List (Complexf R) → List (Complexf R)) (fresh : Nat → Complexf R)
    (g : OfdmGenerator R) (dataIn dataOut : Buffer R)
    (hprod : g.myNbSymbols * g.myNbCarriers < SIZE_MOD) :
    ((∃ out, process T fresh g dataIn dataOut
        = Outcome.thrown ProcessError.inputSizeNotValid out) ↔
      dataIn.getLength / 8 ≠ g.myNbSymbols * g.myNbCarriers) ∧
    ((∃ out, process T fresh g dataIn dataOut
        = Outcome.thrown ProcessError.inputSizeNotValid out) ↔
      (dataIn.getLength < g.myNbSymbols * g.myNbCarriers * 8 ∨
        g.myNbSymbols * g.myNbCarriers * 8 + 8 ≤ dataIn.getLength)) := by
  have e3 : sizeMul g.myNbSymbols g.myNbCarriers = g.myNbSymbols * g.myNbCarriers := by
    unfold sizeMul; exact Nat.mod_eq_of_lt hprod
  have h8 : sizeofComplexf = 8 := rfl
  have key : (∃ out, process T fresh g dataIn dataOut
        = Outcome.thrown ProcessError.inputSizeNotValid out) ↔
      dataIn.getLength / 8 ≠ g.myNbSymbols * g.myNbCarriers := by
    constructor
    · rintro ⟨out, h⟩ heq
      have hb : (dataIn.getLength / sizeofComplexf != sizeMul g.myNbSymbols g.myNbCarriers)
          = false := by rw [e3, h8, heq]; simp
      simp only [process, hb, Bool.false_eq_true, if_false] at h
      split at h
      · cases h
      · split at h <;> cases h
    · intro hne
      have hb : (dataIn.getLength / sizeofComplexf != sizeMul g.myNbSymbols g.myNbCarriers)
          = true := by rw [e3, h8]; simpa using hne
      refine ⟨dataOut.setLength fresh
        (sizeMul (sizeMul g.myNbSymbols g.mySpacing) sizeofComplexf), ?_⟩
      simp only [process, hb, if_true]
  refine ⟨key, key.trans ?_⟩
  omega

/-- C7, amended, at an input of 31 bytes for 1 symbol of 4 carriers. -/
theorem C7_input_size_error_iff_witness :
    gen_1_4_8.myNbSymbols * gen_1_4_8.myNbCarriers < SIZE_MOD ∧
    ((∃ out, process id staleMem gen_1_4_8 ⟨31, carriers4⟩ ⟨0, []⟩
        = Outcome.thrown ProcessError.inputSizeNotValid out) ↔
      (⟨31, carriers4⟩ : Buffer Int).getLength / 8
        ≠ gen_1_4_8.myNbSymbols * gen_1_4_8.myNbCarriers) ∧
    ((∃ out, process id staleMem gen_1_4_8 ⟨31, carriers4⟩ ⟨0, []⟩
        = Outcome.thrown ProcessError.inputSizeNotValid out) ↔
      ((⟨31, carriers4⟩ : Buffer Int).getLength
          < gen_1_4_8.myNbSymbols * gen_1_4_8.myNbCarriers * 8 ∨
        gen_1_4_8.myNbSymbols * gen_1_4_8.myNbCarriers * 8 + 8
          ≤ (⟨31, carriers4⟩ : Buffer Int).getLength)) :=
  ⟨by decide,
    C7_input_size_error_iff id staleMem gen_1_4_8 ⟨31, carriers4⟩ ⟨0, []⟩ (by decide)⟩

/-- C8: the constructor fails if and only if `nbCarriers > spacing`, and it then
fails with that error before anything is acquired (no array, no plan) and
without a generator, hence without a layout. -/
theorem C8_constructor_validation {R : Type} (memIn memOut : Nat → Complexf R)
    (nbSymbols nbCarriers spacing : Nat) (inverse : Bool) :
    ((∃ e, (OfdmGenerator.new memIn memOut nbSymbols nbCarriers spacing inverse).2
        = Except.error e) ↔ nbCarriers > spacing) ∧
    ((∃ e, (OfdmGenerator.new memIn memOut nbSymbols nbCarriers spacing inverse).2
        = Except.error e) ↔
      OfdmGenerator.new memIn memOut nbSymbols nbCarriers spacing inverse
        = ([], Except.error CtorError.nbCarriersGtSpacing)) ∧
    ((∃ g, (OfdmGenerator.new memIn memOut nbSymbols nbCarriers spacing inverse).2
        = Except.ok g) ↔ nbCarriers ≤ spacing) := by
  by_cases h : nbCarriers > spacing
  · have e : OfdmGenerator.new memIn memOut nbSymbols nbCarriers spacing inverse
        = ([], Except.error CtorError.nbCarriersGtSpacing) := by
      simp only [OfdmGenerator.new, if_pos h]
    refine ⟨⟨fun _ => h, fun _ => ⟨_, by rw [e]⟩⟩, ⟨fun _ => e, fun _ => ⟨_, by rw [e]⟩⟩, ?_⟩
    constructor
    · rintro ⟨g, hg⟩
      rw [e] at hg
      cases hg
    · intro hle
      omega
  · obtain ⟨g, hg, -⟩ := new_eq_of_le memIn memOut nbSymbols nbCarriers spacing inverse
      (Nat.le_of_not_lt h)
    refine ⟨⟨?_, fun hh => absurd hh h⟩, ⟨?_, ?_⟩, ⟨fun _ => Nat.le_of_not_lt h, fun _ => ⟨g, by rw [hg]⟩⟩⟩
    · rintro ⟨e, he⟩
      rw [hg] at he
      cases he
    · rintro ⟨e, he⟩
      rw [hg] at he
      cases he
    · intro he
      rw [hg] at he
      have := congrArg Prod.fst he
      simp at this

/-- C9: the pre-transform frame in the inverse direction.  For `N <= S` with `N`
odd or `N < S` (and `S` a value that the `unsigned` members hold), the scatter
of a block `c[0..N)` into a frame of `S` samples of whatever content gives a
frame `f` of `S` samples with, for every `k` in `[0,S)`:
`f[k] = c[k - posDst]` if `posDst <= k < posDst + ceil(N/2)`;
`f[k] = c[ceil(N/2) + k - (S - floor(N/2))]` if `k >= S - floor(N/2)`;
`f[k] = 0` otherwise; `posDst` is 0 for odd `N` and 1 for even `N`.
Here `ceil(N/2)` is `(N + 1) / 2` and `floor(N/2)` is `N / 2`. -/
theorem C9_pre_transform_frame {R : Type} [Zero R] (memIn memOut : Nat → Complexf R)
    (nbSymbols N S : Nat) (h : N ≤ S) (hv : N % 2 = 1 ∨ N < S) (hS : S < UINT_MOD)
    (g : OfdmGenerator R)
    (hg : (OfdmGenerator.new memIn memOut nbSymbols N S true).2 = Except.ok g)
    (fftIn blk : List (Complexf R)) (hlen : fftIn.length = S) (hc : blk.length = N) :
    ∃ f, scatter g fftIn blk 0 = some f ∧ f.length = S ∧
      g.myPosDst = (if N % 2 = 1 then 0 else 1) ∧
      ∀ k, k < S → f[k]? =
        if g.myPosDst ≤ k ∧ k < g.myPosDst + (N + 1) / 2 then blk[k - g.myPosDst]?
        else if S - N / 2 ≤ k then blk[(N + 1) / 2 + k - (S - N / 2)]?
        else some Complexf.zero := by
  have hf := fits_of_new memIn memOut nbSymbols N S true h hv hS g hg
  obtain ⟨-, e2, e3, e4, e5, e6, e7, e8, -⟩ :=
    layout_of_new memIn memOut nbSymbols N S true h hS g hg
  obtain ⟨f, ef, lf, sf⟩ := scatter_spec g hf fftIn blk 0 (by rw [hlen, e3]) (by rw [e2]; omega)
  refine ⟨f, ef, by rw [lf, e3], e4, fun k hk => ?_⟩
  rw [sf k (by rw [e3]; exact hk), e5, e6, e7, e8]
  simp only [if_true, Nat.zero_add, Nat.add_zero]
  by_cases c1 : g.myPosDst ≤ k ∧ k < g.myPosDst + (N + 1) / 2
  · simp only [if_pos c1]
  · simp only [if_neg c1]
    by_cases c2 : S - N / 2 ≤ k
    · simp only [if_pos c2]
      congr 1
      omega
    · simp only [if_neg c2]

/-- C9 at `N=4`, `S=8`: the input `[c0,c1,c2,c3]` gives the frame
`[0, c0, c1, 0, 0, 0, c2, c3]`, with `posDst=1`, `posSize=2`, `zeroDst=3`,
`zeroSize=3`, `negDst=6`, `negSize=2`. -/
theorem C9_pre_transform_frame_witness :
    (4 ≤ 8 ∧ (4 % 2 = 1 ∨ 4 < 8) ∧ 8 < UINT_MOD) ∧
    (OfdmGenerator.new staleMem staleMem 1 4 8 true).2 = Except.ok gen_1_4_8 ∧
    (gen_1_4_8.myPosDst = 1 ∧ gen_1_4_8.myPosSize = 2 ∧ gen_1_4_8.myZeroDst = 3 ∧
      gen_1_4_8.myZeroSize = 3 ∧ gen_1_4_8.myNegDst = 6 ∧ gen_1_4_8.myNegSize = 2) ∧
    scatter gen_1_4_8 ((List.range 8).map staleMem) carriers4 0
      = some [⟨0, 0⟩, ⟨1, -1⟩, ⟨2, -2⟩, ⟨0, 0⟩, ⟨0, 0⟩, ⟨0, 0⟩, ⟨3, -3⟩, ⟨4, -4⟩] ∧
    ∃ f, scatter gen_1_4_8 ((List.range 8).map staleMem) carriers4 0 = some f ∧
      f.length = 8 ∧
      gen_1_4_8.myPosDst = (if 4 % 2 = 1 then 0 else 1) ∧
      ∀ k, k < 8 → f[k]? =
        if gen_1_4_8.myPosDst ≤ k ∧ k < gen_1_4_8.myPosDst + (4 + 1) / 2 then
          carriers4[k - gen_1_4_8.myPosDst]?
        else if 8 - 4 / 2 ≤ k then carriers4[(4 + 1) / 2 + k - (8 - 4 / 2)]?
        else some Complexf.zero :=
  ⟨⟨by decide, by decide, by decide⟩, rfl, ⟨rfl, rfl, rfl, rfl, rfl, rfl⟩, rfl,
    C9_pre_transform_frame staleMem staleMem 1 4 8 (by decide) (by decide) (by decide)
      gen_1_4_8 rfl ((List.range 8).map staleMem) carriers4 rfl rfl⟩

/-- C10: per-block transform and placement.  For a generator constructed with
`N <= S`, `N` odd or `N < S` (sizes that the machine integers hold), with its two
transform arrays in whatever state earlier calls left them, a transform `T` that
maps frames of `S` samples to frames of `S` samples, and an input of exactly
`nbSymbols x N` samples: `process` returns, and for every block `i` the output
samples `[i*S, (i+1)*S)` are `T` of the frame that the scatter builds from the
input samples `[i*N, (i+1)*N)` alone, starting from any frame `z` at all. -/
theorem C10_block_transform {R : Type} [Zero R]
    (T : List (Complexf R) → List (Complexf R)) (fresh : Nat → Complexf R)
    (memIn memOut : Nat → Complexf R) (nbSymbols N S : Nat) (inverse : Bool)
    (h : N ≤ S) (hv : N % 2 = 1 ∨ N < S) (hS : S < UINT_MOD)
    (hsz : nbSymbols * S * 8 < SIZE_MOD)
    (hT : ∀ f : List (Complexf R), f.length = S → (T f).length = S)
    (g0 : OfdmGenerator R)
    (hg : (OfdmGenerator.new memIn memOut nbSymbols N S inverse).2 = Except.ok g0)
    (fi fo : List (Complexf R)) (hfi : fi.length = S)
    (dataIn dataOut : Buffer R)
    (hL : dataIn.getLength = nbSymbols * N * 8)
    (hD : dataIn.getData.length = nbSymbols * N) :
    ∃ out gen, process T fresh { g0 with myFftIn := fi, myFftOut := fo } dataIn dataOut
        = Outcome.returned (toInt (nbSymbols * S)) out gen ∧
      out.getData.length = nbSymbols * S ∧
      ∀ i, i < nbSymbols → ∀ z : List (Complexf R), z.length = S →
        ∃ f, scatter g0 z ((dataIn.getData.drop (i * N)).take N) 0 = some f ∧
          (out.getData.drop (i * S)).take S = T f := by
  have hf0 := fits_of_new memIn memOut nbSymbols N S inverse h hv hS g0 hg
  obtain ⟨e1, e2, e3, -⟩ := layout_of_new memIn memOut nbSymbols N S inverse h hS g0 hg
  have h8 : sizeofComplexf = 8 := rfl
  obtain ⟨out, gen, hp, -, lo, blocks⟩ :=
    process_returns T fresh { g0 with myFftIn := fi, myFftOut := fo } hf0
      (by intro f hlf; simp only [e3] at hlf ⊢; exact hT f hlf)
      (by simp only [e3]; exact hfi) (by simp only [e2, e3]; exact h)
      (by simp only [e1, e3, h8]; exact hsz) dataIn dataOut
      (by simp only [e1, e2, h8, hL]; omega) (by simp only [e1, e2, hD]; exact Nat.le_refl _)
  simp only [e1, e2, e3] at lo blocks
  have hp2 : process T fresh { g0 with myFftIn := fi, myFftOut := fo } dataIn dataOut
      = Outcome.returned (toInt (nbSymbols * S)) out gen := by
    rw [hp]
    simp only [e1, e3]
  refine ⟨out, gen, hp2, lo, fun i hi z hz => ?_⟩
  obtain ⟨f, ef, hb⟩ := blocks i hi z hz
  have hin : i * N + g0.myNbCarriers ≤ dataIn.getData.length := by
    rw [hD, e2]
    have : (i + 1) * N ≤ nbSymbols * N := Nat.mul_le_mul_right N hi
    rw [Nat.succ_mul] at this
    exact this
  have hblk := scatter_block g0 hf0 z dataIn.getData (i * N) (by rw [e3]; exact hz) hin
  rw [e2] at hblk
  have ef0 : scatter g0 z dataIn.getData (i * N) = some f := ef
  obtain ⟨f1, ef1, lf1, -⟩ := scatter_spec g0 hf0 z dataIn.getData (i * N)
    (by rw [e3]; exact hz) hin
  have hff : f1 = f := by rw [ef1] at ef0; injection ef0
  have lT : (T f).length = S := hT f (by rw [← hff, lf1, e3])
  refine ⟨f, by rw [← hblk]; exact ef0, ?_⟩
  apply List.ext_getElem?
  intro k
  by_cases hk : k < S
  · rw [List.getElem?_take, if_pos hk, List.getElem?_drop, hb k hk]
  · rw [List.getElem?_take, if_neg hk, List.getElem?_eq_none (by omega)]

/-- C10 at 2 symbols of 3 carriers in frames of 4, forward, with the reversal of
a frame for `T`: block 0 of the output is `T` of the frame of `[c0,c1,c2]`,
block 1 is `T` of the frame of `[c3,c4,c5]`. -/
theorem C10_block_transform_witness :
    (3 ≤ 4 ∧ (3 % 2 = 1 ∨ 3 < 4) ∧ 4 < UINT_MOD ∧ 2 * 4 * 8 < SIZE_MOD) ∧
    (OfdmGenerator.new staleMem staleMem 2 3 4 false).2 = Except.ok gen_2_3_4 ∧
    (∃ gen, process List.reverse staleMem gen_2_3_4 ⟨48, carriers6⟩ ⟨0, []⟩
      = Outcome.returned 8
          ⟨64, [⟨1, -1⟩, ⟨0, 0⟩, ⟨3, -3⟩, ⟨2, -2⟩, ⟨4, -4⟩, ⟨0, 0⟩, ⟨6, -6⟩, ⟨5, -5⟩]⟩ gen) ∧
    ∃ out gen, process List.reverse staleMem
        { gen_2_3_4 with myFftIn := [⟨9, 9⟩, ⟨9, 9⟩, ⟨9, 9⟩, ⟨9, 9⟩], myFftOut := [] }
        ⟨48, carriers6⟩ ⟨0, []⟩
        = Outcome.returned (toInt (2 * 4)) out gen ∧
      out.getData.length = 2 * 4 ∧
      ∀ i, i < 2 → ∀ z : List (Complexf Int), z.length = 4 →
        ∃ f, scatter gen_2_3_4 z
            (((⟨48, carriers6⟩ : Buffer Int).getData.drop (i * 3)).take 3) 0 = some f ∧
          (out.getData.drop (i * 4)).take 4 = List.reverse f :=
  ⟨⟨by decide, by decide, by decide, by decide⟩, rfl, ⟨_, rfl⟩,
    C10_block_transform List.reverse staleMem staleMem staleMem 2 3 4 false
      (by decide) (by decide) (by decide) (by decide) (fun f hf => by simpa using hf)
      gen_2_3_4 rfl [⟨9, 9⟩, ⟨9, 9⟩, ⟨9, 9⟩, ⟨9, 9⟩] [] rfl
      ⟨48, carriers6⟩ ⟨0, []⟩ rfl rfl⟩

/-! ## Return value, zero input, parity -/

/-- A sample count below `2 ^ 31` is returned unchanged as an `int`. -/
theorem toInt_of_lt (x : Nat) (h : x < 2 ^ 31) : toInt x = (x : Int) := by
  have h2 : x < 2147483648 := by simpa using h
  simp only [toInt, Nat.reducePow]
  omega

/-- A normal return of `process`, on any generator: the output buffer has the
length that was set first, and the value returned is the sample count taken
from that length. -/
theorem process_returned_inv {R : Type} [Zero R] (T : List (Complexf R) → List (Complexf R))
    (fresh : Nat → Complexf R) (g : OfdmGenerator R) (dataIn dataOut : Buffer R)
    (ret : Int) (out : Buffer R) (gen : OfdmGenerator R)
    (hret : process T fresh g dataIn dataOut = Outcome.returned ret out gen) :
    out.getLength = sizeMul (sizeMul g.myNbSymbols g.mySpacing) sizeofComplexf ∧
    ret = toInt (sizeMul (sizeMul g.myNbSymbols g.mySpacing) sizeofComplexf / sizeofComplexf) := by
  simp only [process] at hret
  split at hret
  · cases hret
  · split at hret
    · cases hret
    · split at hret
      · cases hret
      · injection hret with h1 h2 h3
        subst h1 h2
        exact ⟨rfl, rfl⟩

/-- C11: return value and output size.  For a generator constructed with
`N <= S`, `N` odd or `N < S`, in whatever state earlier calls left its arrays,
and an input of exactly `nbSymbols x N` samples (`nbSymbols x S` being a value
an `int` holds), `process` returns `nbSymbols x S`, the sample count, and has
set the output buffer to `nbSymbols x S x 8` bytes holding `nbSymbols x S`
samples; and on any generator a call that returns has returned
`nbSymbols x spacing` with the output length `nbSymbols x spacing x 8`. -/
theorem C11_return_value_and_output_size {R : Type} [Zero R]
    (T : List (Complexf R) → List (Complexf R)) (fresh : Nat → Complexf R)
    (memIn memOut : Nat → Complexf R) (nbSymbols N S : Nat) (inverse : Bool)
    (h : N ≤ S) (hv : N % 2 = 1 ∨ N < S) (hS : S < UINT_MOD)
    (hint : nbSymbols * S < 2 ^ 31)
    (hT : ∀ f : List (Complexf R), f.length = S → (T f).length = S)
    (g0 : OfdmGenerator R)
    (hg : (OfdmGenerator.new memIn memOut nbSymbols N S inverse).2 = Except.ok g0)
    (fi fo : List (Complexf R)) (hfi : fi.length = S)
    (dataIn dataOut : Buffer R)
    (hL : dataIn.getLength = nbSymbols * N * 8)
    (hD : dataIn.getData.length = nbSymbols * N) :
    (∃ out gen, process T fresh { g0 with myFftIn := fi, myFftOut := fo } dataIn dataOut
        = Outcome.returned ((nbSymbols * S : Nat) : Int) out gen ∧
      out.getLength = nbSymbols * S * 8 ∧ out.getData.length = nbSymbols * S) ∧
    ∀ (g : OfdmGenerator R) (din dout : Buffer R) (ret : Int) (out : Buffer R)
      (gen : OfdmGenerator R), g.myNbSymbols = nbSymbols → g.mySpacing = S →
      process T fresh g din dout = Outcome.returned ret out gen →
      ret = ((nbSymbols * S : Nat) : Int) ∧ out.getLength = nbSymbols * S * 8 := by
  have hint2 : nbSymbols * S < 2147483648 := by simpa using hint
  have hM : SIZE_MOD = 18446744073709551616 := by simp [SIZE_MOD]
  have h8 : sizeofComplexf = 8 := rfl
  have hf0 := fits_of_new memIn memOut nbSymbols N S inverse h hv hS g0 hg
  obtain ⟨e1, e2, e3, -⟩ := layout_of_new memIn memOut nbSymbols N S inverse h hS g0 hg
  constructor
  · obtain ⟨out, gen, hp, hl, lo, -⟩ :=
      process_returns T fresh { g0 with myFftIn := fi, myFftOut := fo } hf0
        (by intro f hlf; simp only [e3] at hlf ⊢; exact hT f hlf)
        (by simp only [e3]; exact hfi) (by simp only [e2, e3]; exact h)
        (by simp only [e1, e3, h8, hM]; omega) dataIn dataOut
        (by simp only [e1, e2, h8, hL]; omega) (by simp only [e1, e2, hD]; exact Nat.le_refl _)
    simp only [e1, e3, h8] at hl lo
    refine ⟨out, gen, ?_, hl, lo⟩
    rw [hp]
    simp only [e1, e3]
    rw [toInt_of_lt _ hint]
  · intro g din dout ret out gen hn hs hret
    obtain ⟨a, b⟩ := process_returned_inv T fresh g din dout ret out gen hret
    rw [hn, hs] at a b
    have e5 : sizeMul (sizeMul nbSymbols S) sizeofComplexf = nbSymbols * S * 8 := by
      simp only [sizeMul, hM, h8]; omega
    rw [e5] at a b
    refine ⟨?_, a⟩
    rw [b, h8, Nat.mul_div_cancel _ (by decide : 0 < 8), toInt_of_lt _ hint]

/-- C11 at 2 symbols of 3 carriers in frames of 4: the call returns 8, not 64. -/
theorem C11_return_value_and_output_size_witness :
    (3 ≤ 4 ∧ (3 % 2 = 1 ∨ 3 < 4) ∧ 4 < UINT_MOD ∧ 2 * 4 < 2 ^ 31) ∧
    (∃ out gen, process List.reverse staleMem
        { gen_2_3_4 with myFftIn := [⟨9, 9⟩, ⟨9, 9⟩, ⟨9, 9⟩, ⟨9, 9⟩], myFftOut := [] }
        ⟨48, carriers6⟩ ⟨0, []⟩
        = Outcome.returned ((2 * 4 : Nat) : Int) out gen ∧
      out.getLength = 2 * 4 * 8 ∧ out.getData.length = 2 * 4) ∧
    ∀ (g : OfdmGenerator Int) (din dout : Buffer Int) (ret : Int) (out : Buffer Int)
      (gen : OfdmGenerator Int), g.myNbSymbols = 2 → g.mySpacing = 4 →
      process List.reverse staleMem g din dout = Outcome.returned ret out gen →
      ret = ((2 * 4 : Nat) : Int) ∧ out.getLength = 2 * 4 * 8 :=
  ⟨⟨by decide, by decide, by decide, by decide⟩,
    C11_return_value_and_output_size List.reverse staleMem staleMem staleMem 2 3 4 false
      (by decide) (by decide) (by decide) (by decide) (fun f hf => by simpa using hf)
      gen_2_3_4 rfl [⟨9, 9⟩, ⟨9, 9⟩, ⟨9, 9⟩, ⟨9, 9⟩] [] rfl
      ⟨48, carriers6⟩ ⟨0, []⟩ rfl rfl⟩

/-- The scatter of a block of zeros is the frame of zeros. -/
theorem scatter_zero {R : Type} [Zero R] (g : OfdmGenerator R) (hf : Fits g)
    (z inData : List (Complexf R)) (inOff : Nat)
    (hz : z.length = g.mySpacing) (hin : inOff + g.myNbCarriers ≤ inData.length)
    (h0 : ∀ j, j < inData.length → inData[j]? = some Complexf.zero) :
    scatter g z inData inOff = some (List.replicate g.mySpacing Complexf.zero) := by
  obtain ⟨f, ef, lf, sf⟩ := scatter_spec g hf z inData inOff hz hin
  rw [ef]
  congr 1
  apply List.ext_getElem?
  intro k
  obtain ⟨h1, h2, h3, h4, h5, h6, h7⟩ := hf
  by_cases hk : k < g.mySpacing
  · rw [sf k hk, List.getElem?_replicate, if_pos hk]
    by_cases c1 : g.myPosDst ≤ k ∧ k < g.myPosDst + g.myPosSize
    · simp only [if_pos c1]
      exact h0 _ (by omega)
    · by_cases c2 : g.myNegDst ≤ k
      · simp only [if_neg c1, if_pos c2]
        exact h0 _ (by omega)
      · simp only [if_neg c1, if_neg c2]
  · rw [List.getElem?_eq_none (by omega), List.getElem?_eq_none (by simp; omega)]

/-- C12: zero input.  For a generator constructed with `N <= S`, `N` odd or
`N < S`, whatever its transform arrays and the output buffer held before, and a
transform `T` on frames of `S` samples that maps the frame of zeros to the frame
of zeros: if every input sample is zero, then for every block the frame that the
scatter builds (from any frame `z` at all) is the frame of `S` zeros, and
`process` returns with an output of `nbSymbols x S` zeros. -/
theorem C12_zero_input {R : Type} [Zero R]
    (T : List (Complexf R) → List (Complexf R)) (fresh : Nat → Complexf R)
    (memIn memOut : Nat → Complexf R) (nbSymbols N S : Nat) (inverse : Bool)
    (h : N ≤ S) (hv : N % 2 = 1 ∨ N < S) (hS : S < UINT_MOD)
    (hsz : nbSymbols * S * 8 < SIZE_MOD)
    (hT : ∀ f : List (Complexf R), f.length = S → (T f).length = S)
    (hT0 : T (List.replicate S Complexf.zero) = List.replicate S Complexf.zero)
    (g0 : OfdmGenerator R)
    (hg : (OfdmGenerator.new memIn memOut nbSymbols N S inverse).2 = Except.ok g0)
    (fi fo : List (Complexf R)) (hfi : fi.length = S)
    (dataIn dataOut : Buffer R)
    (hL : dataIn.getLength = nbSymbols * N * 8)
    (hD : dataIn.getData = List.replicate (nbSymbols * N) Complexf.zero) :
    (∀ i, i < nbSymbols → ∀ z : List (Complexf R), z.length = S →
      scatter g0 z dataIn.getData (i * N) = some (List.replicate S Complexf.zero)) ∧
    ∃ gen, process T fresh { g0 with myFftIn := fi, myFftOut := fo } dataIn dataOut
      = Outcome.returned (toInt (nbSymbols * S))
          ⟨nbSymbols * S * 8, List.replicate (nbSymbols * S) Complexf.zero⟩ gen := by
  have hf0 := fits_of_new memIn memOut nbSymbols N S inverse h hv hS g0 hg
  obtain ⟨e1, e2, e3, -⟩ := layout_of_new memIn memOut nbSymbols N S inverse h hS g0 hg
  have h8 : sizeofComplexf = 8 := rfl
  have hDl : dataIn.getData.length = nbSymbols * N := by rw [hD]; simp
  have hzero : ∀ j, j < dataIn.getData.length → dataIn.getData[j]? = some Complexf.zero := by
    intro j hj
    rw [hD] at hj ⊢
    rw [List.getElem?_replicate, if_pos (by simpa using hj)]
  have hfr : ∀ i, i < nbSymbols → ∀ z : List (Complexf R), z.length = S →
      scatter g0 z dataIn.getData (i * N) = some (List.replicate S Complexf.zero) := by
    intro i hi z hz
    have hin : i * N + g0.myNbCarriers ≤ dataIn.getData.length := by
      rw [hDl, e2]
      have : (i + 1) * N ≤ nbSymbols * N := Nat.mul_le_mul_right N hi
      rw [Nat.succ_mul] at this
      exact this
    have := scatter_zero g0 hf0 z dataIn.getData (i * N) (by rw [e3]; exact hz) hin hzero
    rw [e3] at this
    exact this
  refine ⟨hfr, ?_⟩
  obtain ⟨out, gen, hp, hl, lo, blocks⟩ :=
    process_returns T fresh { g0 with myFftIn := fi, myFftOut := fo } hf0
      (by intro f hlf; simp only [e3] at hlf ⊢; exact hT f hlf)
      (by simp only [e3]; exact hfi) (by simp only [e2, e3]; exact h)
      (by simp only [e1, e3, h8]; exact hsz) dataIn dataOut
      (by simp only [e1, e2, h8, hL]; omega) (by simp only [e1, e2, hDl]; exact Nat.le_refl _)
  simp only [e1, e2, e3, h8] at hl lo blocks
  have hdata : out.getData = List.replicate (nbSymbols * S) Complexf.zero := by
    apply List.ext_getElem?
    intro m
    by_cases hm : m < nbSymbols * S
    · have hSpos : 0 < S := by
        rcases Nat.eq_zero_or_pos S with h0 | h0
        · rw [h0] at hm; simp at hm
        · exact h0
      have hi : m / S < nbSymbols := by
        rw [Nat.div_lt_iff_lt_mul hSpos]; exact hm
      have hk : m % S < S := Nat.mod_lt _ hSpos
      obtain ⟨f, ef, hb⟩ := blocks (m / S) hi fi hfi
      have ef2 : scatter g0 fi dataIn.getData (m / S * N) = some f := ef
      rw [hfr (m / S) hi fi hfi] at ef2
      injection ef2 with ef3
      have := hb (m % S) hk
      rw [← ef3, hT0, Nat.mul_comm (m / S) S, Nat.div_add_mod] at this
      rw [this, List.getElem?_replicate, List.getElem?_replicate, if_pos hk, if_pos hm]
    · rw [List.getElem?_eq_none (by omega), List.getElem?_eq_none (by simp; omega)]
  refine ⟨gen, ?_⟩
  rw [hp]
  simp only [e1, e3]
  congr 1
  cases out with
  | mk len data =>
    simp only [Buffer.getLength, Buffer.getData] at hl hdata
    rw [hl, hdata]

/-- C12 at 2 symbols of 3 carriers in frames of 4, with the reversal of a frame
for `T` and arrays that hold stale samples: the output is 8 zeros. -/
theorem C12_zero_input_witness :
    (3 ≤ 4 ∧ (3 % 2 = 1 ∨ 3 < 4) ∧ 4 < UINT_MOD ∧ 2 * 4 * 8 < SIZE_MOD) ∧
    (List.reverse (List.replicate 4 (Complexf.zero : Complexf Int))
      = List.replicate 4 Complexf.zero) ∧
    (∀ i, i < 2 → ∀ z : List (Complexf Int), z.length = 4 →
      scatter gen_2_3_4 z
        (⟨48, List.replicate (2 * 3) Complexf.zero⟩ : Buffer Int).getData (i * 3)
        = some (List.replicate 4 Complexf.zero)) ∧
    ∃ gen, process List.reverse staleMem
        { gen_2_3_4 with myFftIn := [⟨9, 9⟩, ⟨9, 9⟩, ⟨9, 9⟩, ⟨9, 9⟩], myFftOut := [] }
        ⟨48, List.replicate (2 * 3) Complexf.zero⟩ ⟨16, [⟨7, 7⟩, ⟨7, 7⟩]⟩
      = Outcome.returned (toInt (2 * 4))
          ⟨2 * 4 * 8, List.replicate (2 * 4) Complexf.zero⟩ gen :=
  ⟨⟨by decide, by decide, by decide, by decide⟩, by simp,
    C12_zero_input List.reverse staleMem staleMem staleMem 2 3 4 false
      (by decide) (by decide) (by decide) (by decide) (fun f hf => by simpa using hf)
      (by simp) gen_2_3_4 rfl [⟨9, 9⟩, ⟨9, 9⟩, ⟨9, 9⟩, ⟨9, 9⟩] [] rfl
      ⟨48, List.replicate (2 * 3) Complexf.zero⟩ ⟨16, [⟨7, 7⟩, ⟨7, 7⟩]⟩ rfl rfl⟩

/-- Parity of the carrier count and bin 0, for a generator constructed with
`N <= S`, `N` odd or `N < S`: the scatter of a block gives a frame; for odd `N`,
`posDst` is 0 and bin 0 holds the first sample of the positive segment; for
even `N`, `posDst` is 1 and bin 0 is zero. -/
theorem parity_bin0 {R : Type} [Zero R] (memIn memOut : Nat → Complexf R)
    (nbSymbols N S : Nat) (inverse : Bool)
    (h : N ≤ S) (hv : N % 2 = 1 ∨ N < S) (hS : S < UINT_MOD) (g : OfdmGenerator R)
    (hg : (OfdmGenerator.new memIn memOut nbSymbols N S inverse).2 = Except.ok g)
    (z inData : List (Complexf R)) (inOff : Nat)
    (hz : z.length = S) (hin : inOff + N ≤ inData.length) :
    ∃ f, scatter g z inData inOff = some f ∧
      (N % 2 = 1 → g.myPosDst = 0 ∧
        ∃ smp, inData[inOff + g.myPosSrc]? = some smp ∧ f[0]? = some smp) ∧
      (N % 2 = 0 → g.myPosDst = 1 ∧ f[0]? = some Complexf.zero ∧
        (Complexf.zero : Complexf R).re = 0 ∧ (Complexf.zero : Complexf R).im = 0) := by
  have hf := fits_of_new memIn memOut nbSymbols N S inverse h hv hS g hg
  obtain ⟨-, e2, e3, e4, -, e6, e7, -, -, -, -⟩ :=
    layout_of_new memIn memOut nbSymbols N S inverse h hS g hg
  obtain ⟨f, ef, lf, sf⟩ := scatter_spec g hf z inData inOff (by rw [e3]; exact hz)
    (by rw [e2]; exact hin)
  obtain ⟨h1, h2, h3, h4, h5, h6, h7⟩ := hf
  refine ⟨f, ef, ?_, ?_⟩
  · intro hodd
    have hp : g.myPosDst = 0 := by rw [e4, if_pos hodd]
    have hps : 0 < g.myPosSize := by rw [e6]; omega
    have hlt : inOff + g.myPosSrc < inData.length := by omega
    refine ⟨hp, inData[inOff + g.myPosSrc], List.getElem?_eq_getElem hlt, ?_⟩
    rw [sf 0 h7, hp]
    simp only [Nat.le_refl, Nat.zero_add, hps, and_self, if_true, Nat.sub_zero, Nat.add_zero]
    exact List.getElem?_eq_getElem hlt
  · intro hev
    have hp : g.myPosDst = 1 := by rw [e4, if_neg (by omega)]
    refine ⟨hp, ?_, rfl, rfl⟩
    rw [sf 0 h7, hp]
    have hn : ¬ g.myNegDst ≤ 0 := by
      rw [e7]; omega
    simp only [Nat.le_zero_eq, Nat.succ_ne_zero, false_and, if_false, hn]

/-- C13: for even `N` the claim has `posDst == 1` and bin 0 zero after the
scatter of a block, for every `N <= S`.  For `N = S = 2` the constructor returns
a generator with `posDst = 1`, but the scatter of a block of 2 samples into the
frame of 2 samples gives no frame: after the stores to bin 0 it clears
`zeroSize = 4294967295` samples from index 2, outside the array. -/
theorem C13_parity_at_2_2 :
    (OfdmGenerator.new staleMem staleMem 1 2 2 true).2 = Except.ok gen_1_2_2 ∧
    2 % 2 = 0 ∧ gen_1_2_2.myPosDst = 1 ∧ gen_1_2_2.myFftIn.length = 2 ∧
    zeroBin0 gen_1_2_2.myFftIn = some [⟨0, 0⟩, ⟨101, 201⟩] ∧
    bzero [(⟨0, 0⟩ : Complexf Int), ⟨101, 201⟩] gen_1_2_2.myZeroDst gen_1_2_2.myZeroSize = none ∧
    scatter gen_1_2_2 gen_1_2_2.myFftIn [⟨1, -1⟩, ⟨2, -2⟩] 0 = none :=
  ⟨rfl, rfl, rfl, rfl, rfl, rfl, rfl⟩

/-! ## Coverage of the frame and of the block -/

/-- C16: full frame coverage.  For a generator constructed with `N <= S`, `N`
odd or `N < S`: `zeroSize = S - N - posDst` without wrap (`posDst + N <= S`);
the index sets `{0}`, `[posDst, posDst+posSize)`, `[zeroDst, zeroDst+zeroSize)`
and `[negDst, negDst+negSize)` lie inside `[0,S)` and their union is `[0,S)`;
the positive, guard and negative ranges are pairwise disjoint; hence the scatter
of a block gives a frame that does not depend on what the frame held before. -/
theorem C16_full_frame_coverage {R : Type} [Zero R] (memIn memOut : Nat → Complexf R)
    (nbSymbols N S : Nat) (inverse : Bool)
    (h : N ≤ S) (hv : N % 2 = 1 ∨ N < S) (hS : S < UINT_MOD) (g : OfdmGenerator R)
    (hg : (OfdmGenerator.new memIn memOut nbSymbols N S inverse).2 = Except.ok g) :
    (g.myZeroSize = S - N - g.myPosDst ∧ g.myPosDst + N ≤ S ∧
      g.myPosDst + N + g.myZeroSize = S) ∧
    (0 < S ∧ g.myPosDst + g.myPosSize ≤ S ∧ g.myZeroDst + g.myZeroSize ≤ S ∧
      g.myNegDst + g.myNegSize ≤ S) ∧
    (∀ k, k < S ↔ (k = 0 ∨ (g.myPosDst ≤ k ∧ k < g.myPosDst + g.myPosSize) ∨
      (g.myZeroDst ≤ k ∧ k < g.myZeroDst + g.myZeroSize) ∨
      (g.myNegDst ≤ k ∧ k < g.myNegDst + g.myNegSize))) ∧
    (∀ k, ¬ ((g.myPosDst ≤ k ∧ k < g.myPosDst + g.myPosSize) ∧
        (g.myZeroDst ≤ k ∧ k < g.myZeroDst + g.myZeroSize)) ∧
      ¬ ((g.myPosDst ≤ k ∧ k < g.myPosDst + g.myPosSize) ∧
        (g.myNegDst ≤ k ∧ k < g.myNegDst + g.myNegSize)) ∧
      ¬ ((g.myZeroDst ≤ k ∧ k < g.myZeroDst + g.myZeroSize) ∧
        (g.myNegDst ≤ k ∧ k < g.myNegDst + g.myNegSize))) ∧
    (∀ (z1 z2 inData : List (Complexf R)) (inOff : Nat), z1.length = S → z2.length = S →
      inOff + N ≤ inData.length →
      ∃ f, scatter g z1 inData inOff = some f ∧ scatter g z2 inData inOff = some f) := by
  have hf := fits_of_new memIn memOut nbSymbols N S inverse h hv hS g hg
  obtain ⟨-, e2, e3, -⟩ := layout_of_new memIn memOut nbSymbols N S inverse h hS g hg
  obtain ⟨ez, hz⟩ := zeroSize_of_new memIn memOut nbSymbols N S inverse h hv hS g hg
  have hf2 := hf
  obtain ⟨h1, h2, h3, h4, h5, h6, h7⟩ := hf2
  rw [e3] at h4 h7
  refine ⟨⟨ez, hz, by omega⟩, ⟨h7, by omega, by omega, by omega⟩, ?_, ?_, ?_⟩
  · intro k
    constructor
    · intro hk
      omega
    · intro hk
      omega
  · intro k
    refine ⟨by omega, by omega, by omega⟩
  · intro z1 z2 inData inOff hz1 hz2 hin
    obtain ⟨f, ef, -⟩ := scatter_spec g hf z1 inData inOff (by rw [e3]; exact hz1)
      (by rw [e2]; exact hin)
    refine ⟨f, ef, ?_⟩
    rw [← scatter_congr g hf z1 z2 inData inOff (by rw [e3]; exact hz1) (by rw [e3]; exact hz2)
      (by rw [e2]; exact hin)]
    exact ef

/-- C16 at 4 carriers in frames of 8, inverse. -/
theorem C16_full_frame_coverage_witness :
    (4 ≤ 8 ∧ (4 % 2 = 1 ∨ 4 < 8) ∧ 8 < UINT_MOD) ∧
    (gen_1_4_8.myZeroSize = 8 - 4 - gen_1_4_8.myPosDst ∧ gen_1_4_8.myPosDst + 4 ≤ 8 ∧
      gen_1_4_8.myPosDst + 4 + gen_1_4_8.myZeroSize = 8) ∧
    (0 < 8 ∧ gen_1_4_8.myPosDst + gen_1_4_8.myPosSize ≤ 8 ∧
      gen_1_4_8.myZeroDst + gen_1_4_8.myZeroSize ≤ 8 ∧
      gen_1_4_8.myNegDst + gen_1_4_8.myNegSize ≤ 8) ∧
    (∀ k, k < 8 ↔ (k = 0 ∨
      (gen_1_4_8.myPosDst ≤ k ∧ k < gen_1_4_8.myPosDst + gen_1_4_8.myPosSize) ∨
      (gen_1_4_8.myZeroDst ≤ k ∧ k < gen_1_4_8.myZeroDst + gen_1_4_8.myZeroSize) ∨
      (gen_1_4_8.myNegDst ≤ k ∧ k < gen_1_4_8.myNegDst + gen_1_4_8.myNegSize))) ∧
    (∀ k, ¬ ((gen_1_4_8.myPosDst ≤ k ∧ k < gen_1_4_8.myPosDst + gen_1_4_8.myPosSize) ∧
        (gen_1_4_8.myZeroDst ≤ k ∧ k < gen_1_4_8.myZeroDst + gen_1_4_8.myZeroSize)) ∧
      ¬ ((gen_1_4_8.myPosDst ≤ k ∧ k < gen_1_4_8.myPosDst + gen_1_4_8.myPosSize) ∧
        (gen_1_4_8.myNegDst ≤ k ∧ k < gen_1_4_8.myNegDst + gen_1_4_8.myNegSize)) ∧
      ¬ ((gen_1_4_8.myZeroDst ≤ k ∧ k < gen_1_4_8.myZeroDst + gen_1_4_8.myZeroSize) ∧
        (gen_1_4_8.myNegDst ≤ k ∧ k < gen_1_4_8.myNegDst + gen_1_4_8.myNegSize))) ∧
    (∀ (z1 z2 inData : List (Complexf Int)) (inOff : Nat), z1.length = 8 → z2.length = 8 →
      inOff + 4 ≤ inData.length →
      ∃ f, scatter gen_1_4_8 z1 inData inOff = some f ∧
        scatter gen_1_4_8 z2 inData inOff = some f) :=
  ⟨⟨by decide, by decide, by decide⟩,
    C16_full_frame_coverage staleMem staleMem 1 4 8 true (by decide) (by decide) (by decide)
      gen_1_4_8 rfl⟩

/-- C17: the source ranges partition each block, in both directions.  For
`N <= S` and the two generators constructed for the inverse and for the forward
direction: the inverse positive segment reads `[0, ceil(N/2))` and the negative
`[ceil(N/2), N)`; the forward positive segment reads `[floor(N/2), N)` and the
negative `[0, floor(N/2))`; in each direction a carrier index lies in `[0,N)`
exactly when it lies in one of the two read ranges, and never in both; every
read for block `i` stays within the input samples `[i*N, (i+1)*N)`; the six
destination members are the same in both directions. -/
theorem C17_source_ranges {R : Type} (memIn memOut : Nat → Complexf R)
    (nbSymbols N S : Nat) (h : N ≤ S) (hS : S < UINT_MOD) (gi gf : OfdmGenerator R)
    (hgi : (OfdmGenerator.new memIn memOut nbSymbols N S true).2 = Except.ok gi)
    (hgf : (OfdmGenerator.new memIn memOut nbSymbols N S false).2 = Except.ok gf) :
    (gi.myPosSrc = 0 ∧ gi.myPosSrc + gi.myPosSize = (N + 1) / 2 ∧
      gi.myNegSrc = (N + 1) / 2 ∧ gi.myNegSrc + gi.myNegSize = N) ∧
    (gf.myPosSrc = N / 2 ∧ gf.myPosSrc + gf.myPosSize = N ∧
      gf.myNegSrc = 0 ∧ gf.myNegSrc + gf.myNegSize = N / 2) ∧
    (∀ j, (j < N ↔ ((gi.myPosSrc ≤ j ∧ j < gi.myPosSrc + gi.myPosSize) ∨
        (gi.myNegSrc ≤ j ∧ j < gi.myNegSrc + gi.myNegSize))) ∧
      ¬ ((gi.myPosSrc ≤ j ∧ j < gi.myPosSrc + gi.myPosSize) ∧
        (gi.myNegSrc ≤ j ∧ j < gi.myNegSrc + gi.myNegSize))) ∧
    (∀ j, (j < N ↔ ((gf.myPosSrc ≤ j ∧ j < gf.myPosSrc + gf.myPosSize) ∨
        (gf.myNegSrc ≤ j ∧ j < gf.myNegSrc + gf.myNegSize))) ∧
      ¬ ((gf.myPosSrc ≤ j ∧ j < gf.myPosSrc + gf.myPosSize) ∧
        (gf.myNegSrc ≤ j ∧ j < gf.myNegSrc + gf.myNegSize))) ∧
    (∀ i j, (j < gi.myPosSize → i * N ≤ i * N + gi.myPosSrc + j ∧
        i * N + gi.myPosSrc + j < (i + 1) * N) ∧
      (j < gi.myNegSize → i * N ≤ i * N + gi.myNegSrc + j ∧
        i * N + gi.myNegSrc + j < (i + 1) * N) ∧
      (j < gf.myPosSize → i * N ≤ i * N + gf.myPosSrc + j ∧
        i * N + gf.myPosSrc + j < (i + 1) * N) ∧
      (j < gf.myNegSize → i * N ≤ i * N + gf.myNegSrc + j ∧
        i * N + gf.myNegSrc + j < (i + 1) * N)) ∧
    (gi.myPosDst = gf.myPosDst ∧ gi.myPosSize = gf.myPosSize ∧ gi.myNegDst = gf.myNegDst ∧
      gi.myNegSize = gf.myNegSize ∧ gi.myZeroDst = gf.myZeroDst ∧
      gi.myZeroSize = gf.myZeroSize) := by
  obtain ⟨-, -, -, a4, a5, a6, a7, a8, a9, a10, a11⟩ :=
    layout_of_new memIn memOut nbSymbols N S true h hS gi hgi
  obtain ⟨-, -, -, b4, b5, b6, b7, b8, b9, b10, b11⟩ :=
    layout_of_new memIn memOut nbSymbols N S false h hS gf hgf
  simp only [if_true] at a5 a8
  simp only [Bool.false_eq_true, if_false] at b5 b8
  have ed : gi.myPosDst = gf.myPosDst := by rw [a4, b4]
  have ez : gi.myZeroDst = gf.myZeroDst := by rw [a10, b10, ed, a6, b6]
  refine ⟨⟨a5, by omega, a8, by omega⟩, ⟨b5, by omega, b8, by omega⟩, ?_, ?_, ?_,
    ⟨ed, by omega, by omega, by omega, ez, by rw [a11, b11, ez, a7, b7]⟩⟩
  · intro j
    refine ⟨⟨fun hj => ?_, fun hj => ?_⟩, ?_⟩ <;> omega
  · intro j
    refine ⟨⟨fun hj => ?_, fun hj => ?_⟩, ?_⟩ <;> omega
  · intro i j
    rw [Nat.succ_mul]
    refine ⟨fun hj => ?_, fun hj => ?_, fun hj => ?_, fun hj => ?_⟩ <;> omega

/-- C17 at 3 carriers in frames of 4, the forward generator being `gen_2_3_4`. -/
theorem C17_source_ranges_witness :
    (3 ≤ 4 ∧ 4 < UINT_MOD) ∧
    (OfdmGenerator.new staleMem staleMem 2 3 4 false).2 = Except.ok gen_2_3_4 ∧
    ∃ gi : OfdmGenerator Int,
      (OfdmGenerator.new staleMem staleMem 2 3 4 true).2 = Except.ok gi ∧
      (gi.myPosSrc = 0 ∧ gi.myNegSrc = 2 ∧ gen_2_3_4.myPosSrc = 1 ∧ gen_2_3_4.myNegSrc = 0) ∧
      (gi.myPosDst = gen_2_3_4.myPosDst ∧ gi.myPosSize = gen_2_3_4.myPosSize ∧
        gi.myNegDst = gen_2_3_4.myNegDst ∧ gi.myNegSize = gen_2_3_4.myNegSize ∧
        gi.myZeroDst = gen_2_3_4.myZeroDst ∧ gi.myZeroSize = gen_2_3_4.myZeroSize) :=
  ⟨⟨by decide, by decide⟩, rfl, _, rfl, ⟨rfl, rfl, rfl, rfl⟩,
    (C17_source_ranges staleMem staleMem 2 3 4 (by decide) (by decide) _ gen_2_3_4
      rfl rfl).2.2.2.2.2⟩

/-! ## The output-size check -/

/-- C19: the output-size error is never raised.  For every generator whose
`nbSymbols x spacing x 8` a `size_t` holds and every input and output buffer,
`sizeOut`, the length just set divided by 8, equals `nbSymbols x spacing`, and
`process` does not end with the output-size error. -/
theorem C19_output_size_error_unreachable {R : Type} [Zero R]
    (T : List (Complexf R) → List (Complexf R)) (fresh : Nat → Complexf R)
    (g : OfdmGenerator R) (dataIn dataOut : Buffer R)
    (hsz : g.myNbSymbols * g.mySpacing * 8 < SIZE_MOD) :
    (dataOut.setLength fresh
        (sizeMul (sizeMul g.myNbSymbols g.mySpacing) sizeofComplexf)).getLength
      / sizeofComplexf = g.myNbSymbols * g.mySpacing ∧
    sizeMul g.myNbSymbols g.mySpacing = g.myNbSymbols * g.mySpacing ∧
    ∀ out, process T fresh g dataIn dataOut
      ≠ Outcome.thrown ProcessError.outputSizeNotValid out := by
  have hM : SIZE_MOD = 18446744073709551616 := by simp [SIZE_MOD]
  have h8 : sizeofComplexf = 8 := rfl
  rw [hM] at hsz
  have e1 : sizeMul g.myNbSymbols g.mySpacing = g.myNbSymbols * g.mySpacing := by
    simp only [sizeMul, hM]; omega
  have e2 : sizeMul (g.myNbSymbols * g.mySpacing) sizeofComplexf
      = g.myNbSymbols * g.mySpacing * 8 := by
    simp only [sizeMul, hM, h8]; omega
  have e4 : (dataOut.setLength fresh
        (sizeMul (sizeMul g.myNbSymbols g.mySpacing) sizeofComplexf)).getLength
      / sizeofComplexf = g.myNbSymbols * g.mySpacing := by
    rw [e1, e2]
    simp only [Buffer.getLength, Buffer.setLength, h8]
    omega
  refine ⟨e4, e1, fun out hp => ?_⟩
  simp only [process] at hp
  split at hp
  · cases hp
  · split at hp
    · rename_i hne
      rw [e4, e1] at hne
      simp at hne
    · split at hp <;> cases hp

/-- C19 at 1 symbol of 4 carriers in frames of 8, on an input of the wrong size. -/
theorem C19_output_size_error_unreachable_witness :
    gen_1_4_8.myNbSymbols * gen_1_4_8.mySpacing * 8 < SIZE_MOD ∧
    (Buffer.setLength staleMem (⟨0, []⟩ : Buffer Int)
        (sizeMul (sizeMul gen_1_4_8.myNbSymbols gen_1_4_8.mySpacing) sizeofComplexf)).getLength
      / sizeofComplexf = gen_1_4_8.myNbSymbols * gen_1_4_8.mySpacing ∧
    sizeMul gen_1_4_8.myNbSymbols gen_1_4_8.mySpacing
      = gen_1_4_8.myNbSymbols * gen_1_4_8.mySpacing ∧
    ∀ out, process id staleMem gen_1_4_8 ⟨31, carriers4⟩ ⟨0, []⟩
      ≠ Outcome.thrown ProcessError.outputSizeNotValid out :=
  ⟨by decide,
    C19_output_size_error_unreachable id staleMem gen_1_4_8 ⟨31, carriers4⟩ ⟨0, []⟩ (by decide)⟩

/-! ## The GPU path -/

/-- The stores to bin 0 of the frame at `i` keep the length and change element
`i` only; they succeed when the array has an element `i`. -/
theorem zeroBinAt_spec {R : Type} [Zero R] (a : List (Complexf R)) (i : Nat)
    (h : i < a.length) :
    ∃ r, zeroBinAt a i = some r ∧ r.length = a.length ∧
      ∀ k, r[k]? = if k = i then some Complexf.zero else a[k]? := by
  have e : a[i]? = some a[i] := List.getElem?_eq_getElem h
  refine ⟨a.set i ⟨0, 0⟩, ?_, by simp, fun k => ?_⟩
  · simp only [zeroBinAt, e]
  · by_cases hk : k = i
    · subst hk
      simp [Complexf.zero, h]
    · rw [if_neg hk, List.getElem?_set_ne (fun hh => hk hh.symm)]

/-- The stores of one pass of the first GPU loop, on a generator that fits and a
frame of `mySpacing` samples at `base` inside the engine memory: the frame then
holds what the scatter of the software path builds from the same block, and the
memory outside the frame is as before. -/
theorem gpuScatter_spec {R : Type} [Zero R] (g : OfdmGenerator R) (hf : Fits g)
    (mem : List (Complexf R)) (base : Nat) (inData : List (Complexf R)) (inOff : Nat)
    (hb : base + g.mySpacing ≤ mem.length) (hin : inOff + g.myNbCarriers ≤ inData.length)
    (z : List (Complexf R)) (hz : z.length = g.mySpacing) :
    ∃ f m, scatter g z inData inOff = some f ∧ gpuScatter g mem base inData inOff = some m ∧
      m.length = mem.length ∧
      (∀ k, k < g.mySpacing → m[base + k]? = f[k]?) ∧
      (∀ k, k < base ∨ base + g.mySpacing ≤ k → m[k]? = mem[k]?) := by
  obtain ⟨f, ef, lf, sf⟩ := scatter_spec g hf z inData inOff hz hin
  obtain ⟨h1, h2, h3, h4, h5, h6, h7⟩ := hf
  obtain ⟨m0, e0, l0, s0⟩ := zeroBinAt_spec mem base (by omega)
  obtain ⟨m1, e1⟩ := bzero_isSome m0 (base + g.myZeroDst) g.myZeroSize (by omega)
  obtain ⟨l1, s1⟩ := bzero_spec _ _ _ _ e1
  obtain ⟨m2, e2⟩ := memcpy_isSome m1 inData (base + g.myPosDst) (inOff + g.myPosSrc)
    g.myPosSize (by omega) (by omega)
  obtain ⟨l2, s2⟩ := memcpy_spec _ _ _ _ _ _ e2
  obtain ⟨m3, e3⟩ := memcpy_isSome m2 inData (base + g.myNegDst) (inOff + g.myNegSrc)
    g.myNegSize (by omega) (by omega)
  obtain ⟨l3, s3⟩ := memcpy_spec _ _ _ _ _ _ e3
  refine ⟨f, m3, ef, ?_, by omega, fun k hk => ?_, fun k hk => ?_⟩
  · simp [gpuScatter, e0, e1, e2, e3]
  · rw [s3, s2, s1, s0, sf k hk]
    by_cases c1 : g.myPosDst ≤ k ∧ k < g.myPosDst + g.myPosSize
    · have c2 : ¬ (base + g.myNegDst ≤ base + k ∧ base + k < base + g.myNegDst + g.myNegSize) := by
        omega
      have c1b : base + g.myPosDst ≤ base + k ∧ base + k < base + g.myPosDst + g.myPosSize := by
        omega
      simp only [if_neg c2, if_pos c1, if_pos c1b]
      congr 1
      omega
    · have c1b : ¬ (base + g.myPosDst ≤ base + k ∧
          base + k < base + g.myPosDst + g.myPosSize) := by omega
      by_cases c2 : g.myNegDst ≤ k
      · have c3 : base + g.myNegDst ≤ base + k ∧
            base + k < base + g.myNegDst + g.myNegSize := by omega
        simp only [if_pos c3, if_neg c1, if_pos c2]
        congr 1
        omega
      · have c3 : ¬ (base + g.myNegDst ≤ base + k ∧
            base + k < base + g.myNegDst + g.myNegSize) := by omega
        by_cases c4 : base + g.myZeroDst ≤ base + k ∧
            base + k < base + g.myZeroDst + g.myZeroSize
        · simp only [if_neg c3, if_neg c1, if_neg c1b, if_neg c2, if_pos c4]
        · have c5 : base + k = base := by omega
          simp only [if_neg c3, if_neg c1, if_neg c1b, if_neg c2, if_neg c4, if_pos c5]
  · rw [s3, s2, s1, s0]
    have c1 : ¬ (base + g.myNegDst ≤ k ∧ k < base + g.myNegDst + g.myNegSize) := by omega
    have c2 : ¬ (base + g.myPosDst ≤ k ∧ k < base + g.myPosDst + g.myPosSize) := by omega
    have c3 : ¬ (base + g.myZeroDst ≤ k ∧ k < base + g.myZeroDst + g.myZeroSize) := by omega
    have c4 : ¬ k = base := by omega
    simp only [if_neg c1, if_neg c2, if_neg c3, if_neg c4]

/-- The first loop of the GPU path on a generator that fits, for `n` passes from
pass `i`, the frames being `step >= mySpacing` samples apart inside the engine
memory: it ends, the frame of pass `i + j` holds what the scatter of the software
path builds from block `j` of the input read, and the memory below the frame of
pass `i` is as before. -/
theorem gpuScatterLoop_spec {R : Type} [Zero R] (g : OfdmGenerator R) (hf : Fits g)
    (step : Nat) (hstep : g.mySpacing ≤ step) (inData : List (Complexf R)) (n : Nat) :
    ∀ (i : Nat) (mem : List (Complexf R)) (inOff : Nat),
      (i + n) * step ≤ mem.length → inOff + n * g.myNbCarriers ≤ inData.length →
      ∃ m1, gpuScatterLoop g step inData n i mem inOff = some m1 ∧
        m1.length = mem.length ∧
        (∀ k, k < i * step → m1[k]? = mem[k]?) ∧
        ∀ j, j < n → ∀ z : List (Complexf R), z.length = g.mySpacing →
          ∃ f, scatter g z inData (inOff + j * g.myNbCarriers) = some f ∧
            ∀ k, k < g.mySpacing → m1[(i + j) * step + k]? = f[k]? := by
  induction n with
  | zero =>
    intro i mem inOff _ _
    exact ⟨mem, rfl, rfl, fun _ _ => rfl, fun j hj => absurd hj (Nat.not_lt_zero j)⟩
  | succ n ih =>
    intro i mem inOff hmem hin
    have eA : (i + 1) * step = i * step + step := Nat.succ_mul i step
    have eB : (i + (n + 1)) * step = (i + 1 + n) * step := by
      congr 1; omega
    have eC : (i + 1 + n) * step = (i + 1) * step + n * step := Nat.add_mul _ _ _
    rw [Nat.succ_mul] at hin
    rw [eB] at hmem
    obtain ⟨f0, m0, -, em0, lm0, -, keep0⟩ :=
      gpuScatter_spec g hf mem (i * step) inData inOff (by omega) (by omega)
        (List.replicate g.mySpacing Complexf.zero) (by simp)
    obtain ⟨m1, el, l1, keep1, frames⟩ :=
      ih (i + 1) m0 (inOff + g.myNbCarriers) (by omega) (by omega)
    refine ⟨m1, ?_, by omega, ?_, ?_⟩
    · simp only [gpuScatterLoop, em0, Option.some_bind]
      exact el
    · intro k hk
      rw [keep1 k (by omega), keep0 k (Or.inl hk)]
    · intro j hj z hz
      cases j with
      | zero =>
        obtain ⟨f, m0b, ef, em0b, -, fr, -⟩ :=
          gpuScatter_spec g hf mem (i * step) inData inOff (by omega) (by omega) z hz
        have hmm : m0b = m0 := by rw [em0b] at em0; injection em0
        subst hmm
        refine ⟨f, by simpa using ef, fun k hk => ?_⟩
        simp only [Nat.add_zero]
        rw [keep1 _ (by omega), fr k hk]
      | succ j =>
        obtain ⟨f, ef, fr⟩ := frames j (by omega) z hz
        refine ⟨f, ?_, fun k hk => ?_⟩
        · rw [← ef, Nat.succ_mul]
          congr 1
          omega
        · rw [← fr k hk]
          congr 2
          congr 1
          omega

/-- The batched execute on `n` jobs from job `i`, the frames being
`step >= frame` samples apart inside the engine memories: it ends, the output
frame of job `i + j` is `T` of the input frame of job `i + j`, and the output
memory below the frame of job `i` is as before. -/
theorem gpuFftExecuteJobs_spec {R : Type} (T : List (Complexf R) → List (Complexf R))
    (frame step : Nat) (hstep : frame ≤ step)
    (hT : ∀ f : List (Complexf R), f.length = frame → (T f).length = frame)
    (inp : List (Complexf R)) (n : Nat) :
    ∀ (i : Nat) (out : List (Complexf R)),
      (i + n) * step ≤ out.length → (i + n) * step ≤ inp.length →
      ∃ o1, gpuFftExecuteJobs T frame step inp n i out = some o1 ∧
        o1.length = out.length ∧
        (∀ k, k < i * step → o1[k]? = out[k]?) ∧
        ∀ j, j < n → ∀ k, k < frame →
          o1[(i + j) * step + k]? = (T ((inp.drop ((i + j) * step)).take frame))[k]? := by
  induction n with
  | zero =>
    intro i out _ _
    exact ⟨out, rfl, rfl, fun _ _ => rfl, fun j hj => absurd hj (Nat.not_lt_zero j)⟩
  | succ n ih =>
    intro i out hout hinp
    have eA : (i + 1) * step = i * step + step := Nat.succ_mul i step
    have eB : (i + (n + 1)) * step = (i + 1 + n) * step := by
      congr 1; omega
    have eC : (i + 1 + n) * step = (i + 1) * step + n * step := Nat.add_mul _ _ _
    rw [eB] at hout hinp
    have lfr : ((inp.drop (i * step)).take frame).length = frame := by
      simp only [List.length_take, List.length_drop]; omega
    have lT := hT _ lfr
    obtain ⟨o0, e0⟩ := memcpy_isSome out (T ((inp.drop (i * step)).take frame)) (i * step) 0 frame
      (by omega) (by omega)
    obtain ⟨l0, s0⟩ := memcpy_spec _ _ _ _ _ _ e0
    obtain ⟨o1, el, l1, keep1, frames⟩ := ih (i + 1) o0 (by omega) (by omega)
    refine ⟨o1, ?_, by omega, ?_, ?_⟩
    · simp only [gpuFftExecuteJobs, e0, Option.some_bind]
      exact el
    · intro k hk
      rw [keep1 k (by omega), s0 k, if_neg (by omega)]
    · intro j hj k hk
      cases j with
      | zero =>
        simp only [Nat.add_zero]
        rw [keep1 _ (by omega), s0, if_pos (by omega)]
        congr 1
        omega
      | succ j =>
        have := frames j (by omega) k hk
        have e : (i + (j + 1)) * step = (i + 1 + j) * step := by
          congr 1; omega
        rw [e]
        exact this

/-- The second loop of the GPU path for `n` passes from pass `i`: it ends, block
`j` of the output written holds the `mySpacing` samples of the output frame of
job `i + j`, and the output below the first block is as before. -/
theorem gpuGatherLoop_spec {R : Type} (g : OfdmGenerator R)
    (step : Nat) (hstep : g.mySpacing ≤ step) (gpuOut : List (Complexf R)) (n : Nat) :
    ∀ (i : Nat) (outData : List (Complexf R)) (outOff : Nat),
      (i + n) * step ≤ gpuOut.length → outOff + n * g.mySpacing ≤ outData.length →
      ∃ o1, gpuGatherLoop g step gpuOut n i outData outOff = some o1 ∧
        o1.length = outData.length ∧
        (∀ k, k < outOff → o1[k]? = outData[k]?) ∧
        ∀ j, j < n → ∀ k, k < g.mySpacing →
          o1[outOff + j * g.mySpacing + k]? = gpuOut[(i + j) * step + k]? := by
  induction n with
  | zero =>
    intro i outData outOff _ _
    exact ⟨outData, rfl, rfl, fun _ _ => rfl, fun j hj => absurd hj (Nat.not_lt_zero j)⟩
  | succ n ih =>
    intro i outData outOff hg hout
    have eA : (i + 1) * step = i * step + step := Nat.succ_mul i step
    have eB : (i + (n + 1)) * step = (i + 1 + n) * step := by
      congr 1; omega
    have eC : (i + 1 + n) * step = (i + 1) * step + n * step := Nat.add_mul _ _ _
    rw [eB] at hg
    rw [Nat.succ_mul] at hout
    obtain ⟨o0, e0⟩ := memcpy_isSome outData gpuOut outOff (i * step) g.mySpacing
      (by omega) (by omega)
    obtain ⟨l0, s0⟩ := memcpy_spec _ _ _ _ _ _ e0
    obtain ⟨o1, el, l1, keep1, blocks⟩ := ih (i + 1) o0 (outOff + g.mySpacing) (by omega)
      (by omega)
    refine ⟨o1, ?_, by omega, ?_, ?_⟩
    · simp only [gpuGatherLoop, e0, Option.some_bind]
      exact el
    · intro k hk
      rw [keep1 k (by omega), s0 k, if_neg (by omega)]
    · intro j hj k hk
      cases j with
      | zero =>
        simp only [Nat.zero_mul, Nat.add_zero]
        rw [keep1 _ (by omega), s0, if_pos (by omega)]
        congr 1
        omega
      | succ j =>
        have := blocks j (by omega) k hk
        have e : (i + (j + 1)) * step = (i + 1 + j) * step := by
          congr 1; omega
        rw [e, ← this, Nat.succ_mul]
        congr 1
        omega

/-- Two arrays of `n` blocks of `s` samples that agree on every sample of every
block are equal. -/
theorem blocks_ext {β : Type} (a b : List β) (n s : Nat)
    (ha : a.length = n * s) (hb : b.length = n * s)
    (h : ∀ j, j < n → ∀ k, k < s → a[j * s + k]? = b[j * s + k]?) : a = b := by
  apply List.ext_getElem?
  intro m
  by_cases hm : m < n * s
  · have hs : 0 < s := by
      rcases Nat.eq_zero_or_pos s with h0 | h0
      · rw [h0] at hm; simp at hm
      · exact h0
    have hj : m / s < n := by
      rw [Nat.div_lt_iff_lt_mul hs]; exact hm
    have := h (m / s) hj (m % s) (Nat.mod_lt _ hs)
    rw [Nat.mul_comm (m / s) s, Nat.div_add_mod] at this
    exact this
  · rw [List.getElem?_eq_none (by omega), List.getElem?_eq_none (by omega)]

/-- The call `process` of the GPU path on a generator that fits, with an engine
whose memories hold `myNbSymbols` frames `step >= mySpacing` samples apart, an
input of `myNbSymbols * myNbCarriers` samples and an output size that a `size_t`
holds: it returns, and block `i` of the output is the transform of the frame that
the scatter of the software path builds from block `i` of the input. -/
theorem processGpu_returns {R : Type} [Zero R] (T : List (Complexf R) → List (Complexf R))
    (fresh : Nat → Complexf R) (g : OfdmGenerator R) (hf : Fits g)
    (hT : ∀ f : List (Complexf R), f.length = g.mySpacing → (T f).length = g.mySpacing)
    (hNS : g.myNbCarriers ≤ g.mySpacing)
    (hsz : g.myNbSymbols * g.mySpacing * sizeofComplexf < SIZE_MOD)
    (fft : GpuFft R) (hstep : g.mySpacing ≤ fft.step)
    (hgi : g.myNbSymbols * fft.step ≤ fft.inp.length)
    (hgo : g.myNbSymbols * fft.step ≤ fft.out.length)
    (dataIn dataOut : Buffer R)
    (hL : dataIn.getLength / sizeofComplexf = g.myNbSymbols * g.myNbCarriers)
    (hD : g.myNbSymbols * g.myNbCarriers ≤ dataIn.getData.length) :
    ∃ out fft1, processGpu T fresh g fft dataIn dataOut =
        GpuOutcome.returned (toInt (g.myNbSymbols * g.mySpacing)) out fft1 ∧
      out.getLength = g.myNbSymbols * g.mySpacing * sizeofComplexf ∧
      out.getData.length = g.myNbSymbols * g.mySpacing ∧
      ∀ i, i < g.myNbSymbols → ∀ z : List (Complexf R), z.length = g.mySpacing →
        ∃ f, scatter g z dataIn.getData (i * g.myNbCarriers) = some f ∧
          ∀ k, k < g.mySpacing → out.getData[i * g.mySpacing + k]? = (T f)[k]? := by
  have h8 : sizeofComplexf = 8 := rfl
  have hM : SIZE_MOD = 18446744073709551616 := by simp [SIZE_MOD]
  rw [h8, hM] at hsz
  have hmul : g.myNbSymbols * g.myNbCarriers ≤ g.myNbSymbols * g.mySpacing :=
    Nat.mul_le_mul_left _ hNS
  have e1 : sizeMul g.myNbSymbols g.mySpacing = g.myNbSymbols * g.mySpacing := by
    simp only [sizeMul, hM]; omega
  have e2 : sizeMul (g.myNbSymbols * g.mySpacing) sizeofComplexf
      = g.myNbSymbols * g.mySpacing * 8 := by
    simp only [sizeMul, hM, h8]; omega
  have e3 : sizeMul g.myNbSymbols g.myNbCarriers = g.myNbSymbols * g.myNbCarriers := by
    simp only [sizeMul, hM]; omega
  have e4 : g.myNbSymbols * g.mySpacing * 8 / sizeofComplexf = g.myNbSymbols * g.mySpacing := by
    rw [h8]; omega
  have hOut : (dataOut.setLength fresh (g.myNbSymbols * g.mySpacing * 8)).getLength
      / sizeofComplexf = g.myNbSymbols * g.mySpacing := e4
  have ld : (dataOut.setLength fresh (g.myNbSymbols * g.mySpacing * 8)).getData.length
      = g.myNbSymbols * g.mySpacing := by
    simp only [Buffer.getData]
    rw [setLength_data_length, e4]
  obtain ⟨gpuIn, es, ls, -, frames⟩ := gpuScatterLoop_spec g hf fft.step hstep dataIn.getData
    g.myNbSymbols 0 fft.inp 0 (by simpa using hgi) (by simpa using hD)
  obtain ⟨o1, ee, lo1, -, oframes⟩ := gpuFftExecuteJobs_spec T g.mySpacing fft.step hstep hT
    gpuIn g.myNbSymbols 0 fft.out (by simpa using hgo) (by rw [ls]; simpa using hgi)
  obtain ⟨od, eg, lod, -, blocks⟩ := gpuGatherLoop_spec g fft.step hstep o1 g.myNbSymbols 0
    (dataOut.setLength fresh (g.myNbSymbols * g.mySpacing * 8)).getData 0
    (by rw [lo1]; simpa using hgo) (by rw [ld]; omega)
  have ex : gpu_fft_execute T g.mySpacing g.myNbSymbols { fft with inp := gpuIn }
      = some { inp := gpuIn, out := o1, step := fft.step } := by
    simp only [gpu_fft_execute, ee, Option.map_some']
  refine ⟨{ (dataOut.setLength fresh (g.myNbSymbols * g.mySpacing * 8)) with data := od },
    { inp := gpuIn, out := o1, step := fft.step }, ?_, ?_, ?_, ?_⟩
  · simp only [processGpu, e1, e2, e3, hL, hOut, bne_self_eq_false, Bool.false_eq_true, if_false]
    rw [es]
    simp only [ex]
    rw [eg]
  · simp [Buffer.getLength, Buffer.setLength, h8]
  · simp only [Buffer.getData] at lod ld ⊢
    rw [lod, ld]
  · intro i hi z hz
    obtain ⟨f, ef, fr⟩ := frames i hi z hz
    simp only [Nat.zero_add] at ef fr
    refine ⟨f, ef, fun k hk => ?_⟩
    obtain ⟨f2, ef2, lf2, -⟩ := scatter_spec g hf z dataIn.getData (i * g.myNbCarriers) hz
      (by
        have : (i + 1) * g.myNbCarriers ≤ g.myNbSymbols * g.myNbCarriers :=
          Nat.mul_le_mul_right _ hi
        rw [Nat.succ_mul] at this
        omega)
    have hff : f2 = f := by rw [ef2] at ef; injection ef
    subst hff
    have hfr : (gpuIn.drop (i * fft.step)).take g.mySpacing = f2 := by
      apply List.ext_getElem?
      intro k2
      by_cases hk2 : k2 < g.mySpacing
      · rw [List.getElem?_take, if_pos hk2, List.getElem?_drop, fr k2 hk2]
      · rw [List.getElem?_take, if_neg hk2, List.getElem?_eq_none (by omega)]
    have b1 := blocks i hi k hk
    have b2 := oframes i hi k hk
    simp only [Nat.zero_add] at b1 b2
    rw [hfr] at b2
    show od[i * g.mySpacing + k]? = (T f2)[k]?
    rw [b1, b2]

/-! ## Properties of the specification: the two backends -/

/-- C18: backend equivalence.  For a generator constructed with `N <= S`, `N`
odd or `N < S`, a transform `T` on frames of `S` samples, a correctly sized
input, the software path with its two arrays in whatever state, and the
accelerated path with an engine whose memories hold `nbSymbols` frames (at least
`S` samples apart) in whatever state: both calls return, with the same value and
the same output buffer. -/
theorem C18_backend_equivalence {R : Type} [Zero R]
    (T : List (Complexf R) → List (Complexf R)) (fresh : Nat → Complexf R)
    (memIn memOut : Nat → Complexf R) (nbSymbols N S : Nat) (inverse : Bool)
    (h : N ≤ S) (hv : N % 2 = 1 ∨ N < S) (hS : S < UINT_MOD)
    (hsz : nbSymbols * S * 8 < SIZE_MOD)
    (hT : ∀ f : List (Complexf R), f.length = S → (T f).length = S)
    (g0 : OfdmGenerator R)
    (hg : (OfdmGenerator.new memIn memOut nbSymbols N S inverse).2 = Except.ok g0)
    (fi fo : List (Complexf R)) (hfi : fi.length = S)
    (fft : GpuFft R) (hstep : S ≤ fft.step)
    (hgi : nbSymbols * fft.step ≤ fft.inp.length)
    (hgo : nbSymbols * fft.step ≤ fft.out.length)
    (dataIn dataOut : Buffer R)
    (hL : dataIn.getLength = nbSymbols * N * 8)
    (hD : dataIn.getData.length = nbSymbols * N) :
    ∃ ret out gen fft1,
      process T fresh { g0 with myFftIn := fi, myFftOut := fo } dataIn dataOut
        = Outcome.returned ret out gen ∧
      processGpu T fresh g0 fft dataIn dataOut = GpuOutcome.returned ret out fft1 ∧
      ret = toInt (nbSymbols * S) ∧ out.getLength = nbSymbols * S * 8 ∧
      out.getData.length = nbSymbols * S := by
  have hf0 := fits_of_new memIn memOut nbSymbols N S inverse h hv hS g0 hg
  obtain ⟨e1, e2, e3, -⟩ := layout_of_new memIn memOut nbSymbols N S inverse h hS g0 hg
  have h8 : sizeofComplexf = 8 := rfl
  obtain ⟨out, gen, hp, hl, lo, blocks⟩ :=
    process_returns T fresh { g0 with myFftIn := fi, myFftOut := fo } hf0
      (by intro f hlf; simp only [e3] at hlf ⊢; exact hT f hlf)
      (by simp only [e3]; exact hfi) (by simp only [e2, e3]; exact h)
      (by simp only [e1, e3, h8]; exact hsz) dataIn dataOut
      (by simp only [e1, e2, h8, hL]; omega) (by simp only [e1, e2, hD]; exact Nat.le_refl _)
  obtain ⟨out2, fft1, hp2, hl2, lo2, blocks2⟩ :=
    processGpu_returns T fresh g0 hf0
      (by intro f hlf; rw [e3] at hlf ⊢; exact hT f hlf)
      (by rw [e2, e3]; exact h) (by rw [e1, e3, h8]; exact hsz)
      fft (by rw [e3]; exact hstep) (by rw [e1]; exact hgi) (by rw [e1]; exact hgo)
      dataIn dataOut (by rw [e1, e2, h8, hL]; omega) (by rw [e1, e2, hD])
  simp only [e1, e2, e3, h8] at hl lo blocks
  rw [e1, e3] at hp2 lo2
  rw [e1, e3, h8] at hl2
  rw [e1] at blocks2
  rw [e2, e3] at blocks2
  have hdata : out.getData = out2.getData := by
    apply blocks_ext out.getData out2.getData nbSymbols S lo lo2
    intro j hj k hk
    obtain ⟨f, ef, hb⟩ := blocks j hj fi hfi
    obtain ⟨f2, ef2, hb2⟩ := blocks2 j hj fi hfi
    have ef' : scatter g0 fi dataIn.getData (j * N) = some f := ef
    have hff : f2 = f := by rw [ef2] at ef'; injection ef'
    rw [hb k hk, hb2 k hk, hff]
  have hout : out = out2 := by
    cases out with
    | mk len data =>
      cases out2 with
      | mk len2 data2 =>
        simp only [Buffer.getLength, Buffer.getData] at hl hl2 hdata
        rw [hl, hl2, hdata]
  refine ⟨toInt (nbSymbols * S), out, gen, fft1, ?_, ?_, rfl, hl, lo⟩
  · rw [hp]
    simp only [e1, e3]
  · rw [hp2, hout]

/-- C18 at 2 symbols of 3 carriers in frames of 4, forward, with the reversal of
a frame for `T`, the engine frames being 5 samples apart, all arrays holding
stale samples: both paths return 8 and the same 8 output samples. -/
theorem C18_backend_equivalence_witness :
    (3 ≤ 4 ∧ (3 % 2 = 1 ∨ 3 < 4) ∧ 4 < UINT_MOD ∧ 2 * 4 * 8 < SIZE_MOD) ∧
    (4 ≤ gpu_2_5.step ∧ 2 * gpu_2_5.step ≤ gpu_2_5.inp.length ∧
      2 * gpu_2_5.step ≤ gpu_2_5.out.length) ∧
    (∃ fft1, processGpu List.reverse staleMem gen_2_3_4 gpu_2_5 ⟨48, carriers6⟩ ⟨0, []⟩
      = GpuOutcome.returned 8
          ⟨64, [⟨1, -1⟩, ⟨0, 0⟩, ⟨3, -3⟩, ⟨2, -2⟩, ⟨4, -4⟩, ⟨0, 0⟩, ⟨6, -6⟩, ⟨5, -5⟩]⟩ fft1) ∧
    ∃ ret out gen fft1,
      process List.reverse staleMem
        { gen_2_3_4 with myFftIn := [⟨9, 9⟩, ⟨9, 9⟩, ⟨9, 9⟩, ⟨9, 9⟩], myFftOut := [] }
        ⟨48, carriers6⟩ ⟨0, []⟩ = Outcome.returned ret out gen ∧
      processGpu List.reverse staleMem gen_2_3_4 gpu_2_5 ⟨48, carriers6⟩ ⟨0, []⟩
        = GpuOutcome.returned ret out fft1 ∧
      ret = toInt (2 * 4) ∧ out.getLength = 2 * 4 * 8 ∧ out.getData.length = 2 * 4 :=
  ⟨⟨by decide, by decide, by decide, by decide⟩, ⟨by decide, by decide, by decide⟩,
    ⟨_, rfl⟩,
    C18_backend_equivalence List.reverse staleMem staleMem staleMem 2 3 4 false
      (by decide) (by decide) (by decide) (by decide) (fun f hf => by simpa using hf)
      gen_2_3_4 rfl [⟨9, 9⟩, ⟨9, 9⟩, ⟨9, 9⟩, ⟨9, 9⟩] [] rfl gpu_2_5
      (by decide) (by decide) (by decide) ⟨48, carriers6⟩ ⟨0, []⟩ rfl rfl⟩

end OfdmGen

namespace Ofta

namespace endian

/-! ## Byte swaps as arithmetic -/

/-- Masking one byte in place: the byte at bit `k`, left at bit `k`. -/
theorem and_shifted_byte (v k : Nat) : v &&& (255 <<< k) = (v / 2 ^ k % 256) * 2 ^ k := by
  apply Nat.eq_of_testBit_eq
  intro i
  have e255 : (255 : Nat) = 2 ^ 8 - 1 := by norm_num
  have e256 : (256 : Nat) = 2 ^ 8 := by norm_num
  rw [Nat.mul_comm, Nat.testBit_mul_pow_two, e256, Nat.testBit_mod_two_pow,
    ← Nat.shiftRight_eq_div_pow, Nat.testBit_shiftRight, Nat.testBit_and,
    Nat.testBit_shiftLeft, e255, Nat.testBit_two_pow_sub_one]
  by_cases h : k ≤ i
  · have e : k + (i - k) = i := by omega
    simp [h, e, Bool.and_comm]
  · simp [h]

/-- Masking one byte in place, for a mask and a power written out as numerals. -/
theorem mask_byte (v k m p : Nat) (hm : m = 255 <<< k) (hp : p = 2 ^ k) :
    v &&& m = (v / p % 256) * p := by
  rw [hm, hp]
  exact and_shifted_byte v k

/-- Masking the lowest byte. -/
theorem and_byte0 (v : Nat) : v &&& 255 = v % 256 := by
  have := Nat.and_pow_two_sub_one_eq_mod v 8
  simpa using this

/-- Joining a value below `2 ^ k` with a value shifted to bit `k` adds them. -/
theorem or_shifted_byte (a b k : Nat) (h : a < 2 ^ k) : a ||| (b * 2 ^ k) = a + b * 2 ^ k := by
  rw [Nat.lor_comm, Nat.add_comm, Nat.mul_comm]
  exact (Nat.mul_add_lt_is_or h b).symm

/-- The 2-byte swap as arithmetic. -/
theorem swap_bytes_2 (v : Nat) (hv : v < 2 ^ 16) :
    detail.swap_bytes 2 v = some (v / 256 % 256 + (v % 256) * 256) := by
  have hv2 : v < 65536 := by simpa using hv
  simp only [detail.swap_bytes, and_byte0, Nat.shiftRight_eq_div_pow, Nat.shiftLeft_eq,
    Nat.reducePow]
  have t : v % 256 * 256 = (v % 256) * 2 ^ 8 := by omega
  rw [t, or_shifted_byte _ _ 8 (by omega)]
  congr 1
  omega

/-- The 4-byte swap as arithmetic. -/
theorem swap_bytes_4 (v : Nat) (hv : v < 2 ^ 32) :
    detail.swap_bytes 4 v = some (v / 16777216 % 256 + (v / 65536 % 256) * 256
      + (v / 256 % 256) * 65536 + (v % 256) * 16777216) := by
  have a3 : v &&& 0xff000000 = (v / 16777216 % 256) * 16777216 :=
    mask_byte v 24 _ _ (by simp only [Nat.reduceShiftLeft]) (by simp only [Nat.reducePow])
  have a2 : v &&& 0x00ff0000 = (v / 65536 % 256) * 65536 :=
    mask_byte v 16 _ _ (by simp only [Nat.reduceShiftLeft]) (by simp only [Nat.reducePow])
  have a1 : v &&& 0x0000ff00 = (v / 256 % 256) * 256 :=
    mask_byte v 8 _ _ (by simp only [Nat.reduceShiftLeft]) (by simp only [Nat.reducePow])
  have hv2 : v < 4294967296 := by simpa using hv
  simp only [detail.swap_bytes]
  rw [a3, a2, a1, and_byte0]
  simp only [Nat.shiftRight_eq_div_pow, Nat.shiftLeft_eq, Nat.reducePow]
  have t0 : v / 16777216 % 256 * 16777216 / 16777216 = v / 16777216 % 256 := by omega
  have t1 : v / 65536 % 256 * 65536 / 256 = (v / 65536 % 256) * 2 ^ 8 := by omega
  have t2 : v / 256 % 256 * 256 * 256 = (v / 256 % 256) * 2 ^ 16 := by omega
  have t3 : v % 256 * 16777216 = (v % 256) * 2 ^ 24 := by omega
  rw [t0, t1, t2, t3]
  rw [or_shifted_byte _ _ 8 (by omega), or_shifted_byte _ _ 16 (by omega),
    or_shifted_byte _ _ 24 (by omega)]
  congr 1
  omega

/-- The 8-byte swap as arithmetic. -/
theorem swap_bytes_8 (v : Nat) (hv : v < 2 ^ 64) :
    detail.swap_bytes 8 v = some (v / 72057594037927936 % 256
      + (v / 281474976710656 % 256) * 256
      + (v / 1099511627776 % 256) * 65536
      + (v / 4294967296 % 256) * 16777216
      + (v / 16777216 % 256) * 4294967296
      + (v / 65536 % 256) * 1099511627776
      + (v / 256 % 256) * 281474976710656
      + (v % 256) * 72057594037927936) := by
  have a7 : v &&& 0xff00000000000000 = (v / 72057594037927936 % 256) * 72057594037927936 :=
    mask_byte v 56 _ _ (by simp only [Nat.reduceShiftLeft]) (by simp only [Nat.reducePow])
  have a6 : v &&& 0x00ff000000000000 = (v / 281474976710656 % 256) * 281474976710656 :=
    mask_byte v 48 _ _ (by simp only [Nat.reduceShiftLeft]) (by simp only [Nat.reducePow])
  have a5 : v &&& 0x0000ff0000000000 = (v / 1099511627776 % 256) * 1099511627776 :=
    mask_byte v 40 _ _ (by simp only [Nat.reduceShiftLeft]) (by simp only [Nat.reducePow])
  have a4 : v &&& 0x000000ff00000000 = (v / 4294967296 % 256) * 4294967296 :=
    mask_byte v 32 _ _ (by simp only [Nat.reduceShiftLeft]) (by simp only [Nat.reducePow])
  have a3 : v &&& 0x00000000ff000000 = (v / 16777216 % 256) * 16777216 :=
    mask_byte v 24 _ _ (by simp only [Nat.reduceShiftLeft]) (by simp only [Nat.reducePow])
  have a2 : v &&& 0x0000000000ff0000 = (v / 65536 % 256) * 65536 :=
    mask_byte v 16 _ _ (by simp only [Nat.reduceShiftLeft]) (by simp only [Nat.reducePow])
  have a1 : v &&& 0x000000000000ff00 = (v / 256 % 256) * 256 :=
    mask_byte v 8 _ _ (by simp only [Nat.reduceShiftLeft]) (by simp only [Nat.reducePow])
  have hv2 : v < 18446744073709551616 := by simpa using hv
  simp only [detail.swap_bytes]
  rw [a7, a6, a5, a4, a3, a2, a1, and_byte0]
  simp only [Nat.shiftRight_eq_div_pow, Nat.shiftLeft_eq, Nat.reducePow]
  have t0 : v / 72057594037927936 % 256 * 72057594037927936 / 72057594037927936
      = v / 72057594037927936 % 256 := by omega
  have t1 : v / 281474976710656 % 256 * 281474976710656 / 1099511627776
      = (v / 281474976710656 % 256) * 2 ^ 8 := by omega
  have t2 : v / 1099511627776 % 256 * 1099511627776 / 16777216
      = (v / 1099511627776 % 256) * 2 ^ 16 := by omega
  have t3 : v / 4294967296 % 256 * 4294967296 / 256
      = (v / 4294967296 % 256) * 2 ^ 24 := by omega
  have t4 : v / 16777216 % 256 * 16777216 * 256 = (v / 16777216 % 256) * 2 ^ 32 := by omega
  have t5 : v / 65536 % 256 * 65536 * 16777216 = (v / 65536 % 256) * 2 ^ 40 := by omega
  have t6 : v / 256 % 256 * 256 * 1099511627776 = (v / 256 % 256) * 2 ^ 48 := by omega
  have t7 : v % 256 * 72057594037927936 = (v % 256) * 2 ^ 56 := by omega
  rw [t0, t1, t2, t3, t4, t5, t6, t7]
  rw [or_shifted_byte _ _ 8 (by omega), or_shifted_byte _ _ 16 (by omega),
    or_shifted_byte _ _ 24 (by omega), or_shifted_byte _ _ 32 (by omega),
    or_shifted_byte _ _ 40 (by omega), or_shifted_byte _ _ 48 (by omega),
    or_shifted_byte _ _ 56 (by omega)]
  congr 1
  omega

/-- A value of 2 bytes is the sum of its bytes. -/
theorem decomp2 (v : Nat) (hv : v < 65536) :
    ∃ b0 b1, b0 < 256 ∧ b1 < 256 ∧ v = b0 + b1 * 256 := by
  refine ⟨v % 256, v / 256, ?_, ?_, ?_⟩ <;> omega

/-- A value of 4 bytes is the sum of its bytes. -/
theorem decomp4 (v : Nat) (hv : v < 4294967296) :
    ∃ b0 b1 b2 b3, b0 < 256 ∧ b1 < 256 ∧ b2 < 256 ∧ b3 < 256 ∧
      v = b0 + b1 * 256 + b2 * 65536 + b3 * 16777216 := by
  refine ⟨v % 256, v / 256 % 256, v / 256 / 256 % 256, v / 256 / 256 / 256,
    ?_, ?_, ?_, ?_, ?_⟩ <;> omega

/-- A value of 8 bytes is the sum of its bytes. -/
theorem decomp8 (v : Nat) (hv : v < 18446744073709551616) :
    ∃ b0 b1 b2 b3 b4 b5 b6 b7, b0 < 256 ∧ b1 < 256 ∧ b2 < 256 ∧ b3 < 256 ∧ b4 < 256 ∧
      b5 < 256 ∧ b6 < 256 ∧ b7 < 256 ∧
      v = b0 + b1 * 256 + b2 * 65536 + b3 * 16777216 + b4 * 4294967296 + b5 * 1099511627776
      + b6 * 281474976710656 + b7 * 72057594037927936 := by
  refine ⟨v % 256, v / 256 % 256, v / 256 / 256 % 256, v / 256 / 256 / 256 % 256,
    v / 256 / 256 / 256 / 256 % 256, v / 256 / 256 / 256 / 256 / 256 % 256,
    v / 256 / 256 / 256 / 256 / 256 / 256 % 256, v / 256 / 256 / 256 / 256 / 256 / 256 / 256,
    ?_, ?_, ?_, ?_, ?_, ?_, ?_, ?_, ?_⟩ <;> omega

/-- The 2-byte swap on the bytes of the value. -/
theorem swap_bytes_2_bytes (b0 b1 : Nat) (h0 : b0 < 256) (h1 : b1 < 256) :
    detail.swap_bytes 2 (b0 + b1 * 256) = some (b1 + b0 * 256) := by
  rw [swap_bytes_2 _ (by simp only [Nat.reducePow]; omega)]
  congr 1
  omega

/-- The 4-byte swap on the bytes of the value. -/
theorem swap_bytes_4_bytes (b0 b1 b2 b3 : Nat) (h0 : b0 < 256) (h1 : b1 < 256)
    (h2 : b2 < 256) (h3 : b3 < 256) :
    detail.swap_bytes 4 (b0 + b1 * 256 + b2 * 65536 + b3 * 16777216)
      = some (b3 + b2 * 256 + b1 * 65536 + b0 * 16777216) := by
  rw [swap_bytes_4 _ (by simp only [Nat.reducePow]; omega)]
  have e0 : (b0 + b1 * 256 + b2 * 65536 + b3 * 16777216) % 256 = b0 := by omega
  have e1 : (b0 + b1 * 256 + b2 * 65536 + b3 * 16777216) / 256 % 256 = b1 := by omega
  have e2 : (b0 + b1 * 256 + b2 * 65536 + b3 * 16777216) / 65536 % 256 = b2 := by omega
  have e3 : (b0 + b1 * 256 + b2 * 65536 + b3 * 16777216) / 16777216 % 256 = b3 := by omega
  rw [e0, e1, e2, e3]

/-- The 8-byte swap on the bytes of the value. -/
theorem swap_bytes_8_bytes (b0 b1 b2 b3 b4 b5 b6 b7 : Nat) (h0 : b0 < 256) (h1 : b1 < 256)
    (h2 : b2 < 256) (h3 : b3 < 256) (h4 : b4 < 256) (h5 : b5 < 256) (h6 : b6 < 256)
    (h7 : b7 < 256) :
    detail.swap_bytes 8 (b0 + b1 * 256 + b2 * 65536 + b3 * 16777216 + b4 * 4294967296 + b5 * 1099511627776
      + b6 * 281474976710656 + b7 * 72057594037927936)
      = some (b7 + b6 * 256 + b5 * 65536 + b4 * 16777216 + b3 * 4294967296 + b2 * 1099511627776
      + b1 * 281474976710656 + b0 * 72057594037927936) := by
  rw [swap_bytes_8 _ (by simp only [Nat.reducePow]; omega)]
  have e0 : (b0 + b1 * 256 + b2 * 65536 + b3 * 16777216 + b4 * 4294967296 + b5 * 1099511627776
      + b6 * 281474976710656 + b7 * 72057594037927936) % 256 = b0 := by omega
  have e1 : (b0 + b1 * 256 + b2 * 65536 + b3 * 16777216 + b4 * 4294967296 + b5 * 1099511627776
      + b6 * 281474976710656 + b7 * 72057594037927936) / 256 % 256 = b1 := by omega
  have e2 : (b0 + b1 * 256 + b2 * 65536 + b3 * 16777216 + b4 * 4294967296 + b5 * 1099511627776
      + b6 * 281474976710656 + b7 * 72057594037927936) / 65536 % 256 = b2 := by omega
  have e3 : (b0 + b1 * 256 + b2 * 65536 + b3 * 16777216 + b4 * 4294967296 + b5 * 1099511627776
      + b6 * 281474976710656 + b7 * 72057594037927936) / 16777216 % 256 = b3 := by omega
  have e4 : (b0 + b1 * 256 + b2 * 65536 + b3 * 16777216 + b4 * 4294967296 + b5 * 1099511627776
      + b6 * 281474976710656 + b7 * 72057594037927936) / 4294967296 % 256 = b4 := by omega
  have e5 : (b0 + b1 * 256 + b2 * 65536 + b3 * 16777216 + b4 * 4294967296 + b5 * 1099511627776
      + b6 * 281474976710656 + b7 * 72057594037927936) / 1099511627776 % 256 = b5 := by omega
  have e6 : (b0 + b1 * 256 + b2 * 65536 + b3 * 16777216 + b4 * 4294967296 + b5 * 1099511627776
      + b6 * 281474976710656 + b7 * 72057594037927936) / 281474976710656 % 256 = b6 := by omega
  have e7 : (b0 + b1 * 256 + b2 * 65536 + b3 * 16777216 + b4 * 4294967296 + b5 * 1099511627776
      + b6 * 281474976710656 + b7 * 72057594037927936) / 72057594037927936 % 256 = b7 := by omega
  rw [e0, e1, e2, e3, e4, e5, e6, e7]

/-- Swapping the bytes twice gives the value back. -/
theorem swap_bytes_twice (w v : Nat) (hw : w = 1 ∨ w = 2 ∨ w = 4 ∨ w = 8)
    (hv : v < 2 ^ (8 * w)) :
    (detail.swap_bytes w v).bind (detail.swap_bytes w) = some v := by
  rcases hw with rfl | rfl | rfl | rfl
  · rfl
  · obtain ⟨b0, b1, h0, h1, rfl⟩ := decomp2 v (by simpa using hv)
    rw [swap_bytes_2_bytes b0 b1 h0 h1, Option.some_bind, swap_bytes_2_bytes b1 b0 h1 h0]
  · obtain ⟨b0, b1, b2, b3, h0, h1, h2, h3, rfl⟩ := decomp4 v (by simpa using hv)
    rw [swap_bytes_4_bytes b0 b1 b2 b3 h0 h1 h2 h3, Option.some_bind,
      swap_bytes_4_bytes b3 b2 b1 b0 h3 h2 h1 h0]
  · obtain ⟨b0, b1, b2, b3, b4, b5, b6, b7, h0, h1, h2, h3, h4, h5, h6, h7, rfl⟩ :=
      decomp8 v (by simpa using hv)
    rw [swap_bytes_8_bytes b0 b1 b2 b3 b4 b5 b6 b7 h0 h1 h2 h3 h4 h5 h6 h7, Option.some_bind,
      swap_bytes_8_bytes b7 b6 b5 b4 b3 b2 b1 b0 h7 h6 h5 h4 h3 h2 h1 h0]

/-! ## Properties of the specification: byte order -/

/-- C14: the byte swap reverses the byte order.  For a width `w` of 2, 4 or 8
bytes and a value `v` of `w` bytes, `swap_bytes<T, w>` returns a value of `w`
bytes whose byte `i` is byte `w - 1 - i` of `v`, for every `i` in `[0, w)`; for
the width 1 it returns `v`. -/
theorem C14_swap_bytes_reverses (w v : Nat) (hw : w = 2 ∨ w = 4 ∨ w = 8)
    (hv : v < 2 ^ (8 * w)) :
    (∃ r, detail.swap_bytes w v = some r ∧ r < 2 ^ (8 * w) ∧
      ∀ i, i < w → byteOf r i = byteOf v (w - 1 - i)) ∧
    detail.swap_bytes 1 v = some v := by
  refine ⟨?_, rfl⟩
  rcases hw with rfl | rfl | rfl
  · obtain ⟨b0, b1, h0, h1, rfl⟩ := decomp2 v (by simpa using hv)
    clear hv
    refine ⟨_, swap_bytes_2_bytes b0 b1 h0 h1, by simp only [Nat.reduceMul, Nat.reducePow]; omega,
      fun i hi => ?_⟩
    interval_cases i <;>
      simp only [byteOf, Nat.shiftRight_eq_div_pow, Nat.reduceMul, Nat.reducePow,
        Nat.reduceSub] <;>
      first
        | (refine @Eq.trans _ _ b0 _ ?_ ?_ <;> omega)
        | (refine @Eq.trans _ _ b1 _ ?_ ?_ <;> omega)
  · obtain ⟨b0, b1, b2, b3, h0, h1, h2, h3, rfl⟩ := decomp4 v (by simpa using hv)
    clear hv
    refine ⟨_, swap_bytes_4_bytes b0 b1 b2 b3 h0 h1 h2 h3,
      by simp only [Nat.reduceMul, Nat.reducePow]; omega, fun i hi => ?_⟩
    interval_cases i <;>
      simp only [byteOf, Nat.shiftRight_eq_div_pow, Nat.reduceMul, Nat.reducePow,
        Nat.reduceSub] <;>
      first
        | (refine @Eq.trans _ _ b0 _ ?_ ?_ <;> omega)
        | (refine @Eq.trans _ _ b1 _ ?_ ?_ <;> omega)
        | (refine @Eq.trans _ _ b2 _ ?_ ?_ <;> omega)
        | (refine @Eq.trans _ _ b3 _ ?_ ?_ <;> omega)
  · obtain ⟨b0, b1, b2, b3, b4, b5, b6, b7, h0, h1, h2, h3, h4, h5, h6, h7, rfl⟩ :=
      decomp8 v (by simpa using hv)
    clear hv
    refine ⟨_, swap_bytes_8_bytes b0 b1 b2 b3 b4 b5 b6 b7 h0 h1 h2 h3 h4 h5 h6 h7,
      by simp only [Nat.reduceMul, Nat.reducePow]; omega, fun i hi => ?_⟩
    interval_cases i <;>
      simp only [byteOf, Nat.shiftRight_eq_div_pow, Nat.reduceMul, Nat.reducePow,
        Nat.reduceSub] <;>
      first
        | (refine @Eq.trans _ _ b0 _ ?_ ?_ <;> omega)
        | (refine @Eq.trans _ _ b1 _ ?_ ?_ <;> omega)
        | (refine @Eq.trans _ _ b2 _ ?_ ?_ <;> omega)
        | (refine @Eq.trans _ _ b3 _ ?_ ?_ <;> omega)
        | (refine @Eq.trans _ _ b4 _ ?_ ?_ <;> omega)
        | (refine @Eq.trans _ _ b5 _ ?_ ?_ <;> omega)
        | (refine @Eq.trans _ _ b6 _ ?_ ?_ <;> omega)
        | (refine @Eq.trans _ _ b7 _ ?_ ?_ <;> omega)

/-- C14 at the example of the header: the 8 bytes `01 02 03 04 05 06 07 08`,
read on a little-endian host as `0x0807060504030201`, are converted by `NtoH`
to `0x0102030405060708`. -/
theorem C14_swap_bytes_reverses_witness :
    (8 = 2 ∨ 8 = 4 ∨ 8 = 8) ∧ 0x0807060504030201 < 2 ^ (8 * 8) ∧
    readLittleEndian [1, 2, 3, 4, 5, 6, 7, 8] = 0x0807060504030201 ∧
    NtoH endianness.little_endian 8 0x0807060504030201 = some 0x0102030405060708 ∧
    detail.swap_bytes 8 0x0807060504030201 = some 0x0102030405060708 ∧
    (∃ r, detail.swap_bytes 8 0x0807060504030201 = some r ∧ r < 2 ^ (8 * 8) ∧
      ∀ i, i < 8 → byteOf r i = byteOf 0x0807060504030201 (8 - 1 - i)) ∧
    detail.swap_bytes 1 0x0807060504030201 = some 0x0807060504030201 :=
  ⟨by decide, by decide, by decide, by decide, by decide,
    C14_swap_bytes_reverses 8 0x0807060504030201 (by decide) (by decide)⟩

/-- C15: host/network round trip.  For either host endianness and every value
`v` of 1, 2, 4 or 8 bytes, `NtoH(HtoN(v)) == v` and `HtoN(NtoH(v)) == v`;
`ByteSwap<from, to>` returns `v` when `from == to`, and applied twice returns
`v` when `from != to`. -/
theorem C15_round_trip (host : endianness) (w v : Nat)
    (hw : w = 1 ∨ w = 2 ∨ w = 4 ∨ w = 8) (hv : v < 2 ^ (8 * w)) :
    (HtoN host w v).bind (NtoH host w) = some v ∧
    (NtoH host w v).bind (HtoN host w) = some v ∧
    (∀ e : endianness, ByteSwap e e w v = some v) ∧
    (∀ a b : endianness, a ≠ b → (ByteSwap a b w v).bind (ByteSwap a b w) = some v) := by
  have tw := swap_bytes_twice w v hw hv
  have hsame : ∀ e : endianness, ByteSwap e e w v = some v := by
    intro e
    cases e <;> simp only [ByteSwap, if_pos hw, detail.do_byte_swap]
  have hdiff : ∀ a b : endianness, a ≠ b → ∀ x, ByteSwap a b w x = detail.swap_bytes w x := by
    intro a b hab x
    cases a <;> cases b <;> simp only [ByteSwap, if_pos hw, detail.do_byte_swap]
    · exact absurd rfl hab
    · exact absurd rfl hab
  have hfun : ∀ a b : endianness, a ≠ b → ByteSwap a b w = detail.swap_bytes w := by
    intro a b hab
    funext x
    exact hdiff a b hab x
  refine ⟨?_, ?_, hsame, ?_⟩
  · cases host
    · simp only [HtoN, NtoH]
      rw [hfun _ _ (by decide), hfun _ _ (by decide)]
      exact tw
    · simp only [HtoN, NtoH]
      rw [hsame]
      exact hsame _
  · cases host
    · simp only [HtoN, NtoH]
      rw [hfun _ _ (by decide), hfun _ _ (by decide)]
      exact tw
    · simp only [HtoN, NtoH]
      rw [hsame]
      exact hsame _
  · intro a b hab
    rw [hfun a b hab]
    exact tw

/-- C15 at the sequence number 1234 of the header, as 8 bytes on a
little-endian host. -/
theorem C15_round_trip_witness :
    (8 = 1 ∨ 8 = 2 ∨ 8 = 4 ∨ 8 = 8) ∧ 1234 < 2 ^ (8 * 8) ∧
    HtoN endianness.little_endian 8 1234 = some 0xd204000000000000 ∧
    (HtoN endianness.little_endian 8 1234).bind (NtoH endianness.little_endian 8) = some 1234 ∧
    (NtoH endianness.little_endian 8 1234).bind (HtoN endianness.little_endian 8) = some 1234 ∧
    (∀ e : endianness, ByteSwap e e 8 1234 = some 1234) ∧
    (∀ a b : endianness, a ≠ b → (ByteSwap a b 8 1234).bind (ByteSwap a b 8) = some 1234) :=
  ⟨by decide, by decide, by decide,
    C15_round_trip endianness.little_endian 8 1234 (by decide) (by decide)⟩

end endian

end Ofta
